import Mathlib

set_option maxHeartbeats 1000000

/-!
A shallow embedding of `src/check.py`, the validator / formatter for the
SDL_GameControllerDB flat-text database, together with proofs about the
record parser (`Mapping.__init__` and its helpers), the serializer
(`Mapping.serialize`), the GUID migration (`Mapping.convert_guid`) and the
duplicate registry kept by `main`.

Strings are modelled as `List Char` (`LC`); Python string primitives used by
the source (slicing, `split`, `replace`, `re.sub(" +", " ")`, the `csv`
reader) are modelled explicitly below.
-/

abbrev LC := List Char

/-- Python slice `s[a:b]` for `0 ≤ a ≤ b` (out-of-range indices clamp). -/
def pySlice (s : LC) (a b : Nat) : LC := (s.drop a).take (b - a)

/-- `re.sub(r" +", " ", s)`: every maximal run of spaces becomes one space. -/
def collapseSpaces : LC → LC
  | [] => []
  | [c] => [c]
  | c :: d :: rest =>
    if c = ' ' ∧ d = ' ' then collapseSpaces (d :: rest)
    else c :: collapseSpaces (d :: rest)

/-- Helper for `pyReplace`: while the counter is positive the characters of a
matched occurrence are being consumed; at `0` we look for the next
occurrence of `old` (Python `str.replace` scans left to right and replaces
non-overlapping occurrences). -/
def replA (old : LC) : Nat → LC → LC
  | _, [] => []
  | n+1, _ :: rest => replA old n rest
  | 0, c :: rest =>
    if old ≠ [] ∧ old.isPrefixOf (c :: rest) then replA old (old.length - 1) rest
    else c :: replA old 0 rest

/-- Python `s.replace(old, "")`. -/
def pyReplace (s old : LC) : LC := replA old 0 s

/-- Python substring test `pat in s`. -/
def containsSub : LC → LC → Bool
  | [], pat => pat.isPrefixOf []
  | c :: rest, pat => pat.isPrefixOf (c :: rest) || containsSub rest pat

/-- Python `s.split(d)` (split on every occurrence, no maxsplit). -/
def pySplit (d : Char) : LC → List LC
  | [] => [[]]
  | c :: rest =>
    match pySplit d rest with
    | [] => [[]]
    | f :: fs => if c = d then [] :: f :: fs else (c :: f) :: fs

/-! ### The csv reader

`Mapping.__init__` does `next(csv.reader([mappingstring], skipinitialspace=True))`.
This is the CPython `_csv` state machine restricted to a single input chunk:
default dialect (delimiter `,`, quotechar `"`, doublequote, non-strict,
skipinitialspace on).  A NUL character anywhere raises `csv.Error`
("line contains NUL"); a character following a newline run raises `csv.Error`
("new-line character seen in unquoted field"); a blank chunk produces no
record, so `next` raises `StopIteration`. -/

inductive CsvState
  | startField | inField | inQuoted | quoteInQuoted | eatCrnl
deriving DecidableEq

inductive CsvOut
  | row (fields : List LC)
  | noRecord
  | err
deriving DecidableEq

def csvRun : CsvState → List LC → LC → LC → CsvOut
  | .startField, fs, _, [] => .row (fs ++ [[]])
  | .inField, fs, acc, [] => .row (fs ++ [acc])
  | .inQuoted, fs, acc, [] => .row (fs ++ [acc])
  | .quoteInQuoted, fs, acc, [] => .row (fs ++ [acc])
  | .eatCrnl, fs, _, [] => .row fs
  | .startField, fs, _, c :: rest =>
    if c = '\n' ∨ c = '\r' then csvRun .eatCrnl (fs ++ [[]]) [] rest
    else if c = '"' then csvRun .inQuoted fs [] rest
    else if c = ',' then csvRun .startField (fs ++ [[]]) [] rest
    else if c = ' ' then csvRun .startField fs [] rest
    else csvRun .inField fs [c] rest
  | .inField, fs, acc, c :: rest =>
    if c = '\n' ∨ c = '\r' then csvRun .eatCrnl (fs ++ [acc]) [] rest
    else if c = ',' then csvRun .startField (fs ++ [acc]) [] rest
    else csvRun .inField fs (acc ++ [c]) rest
  | .inQuoted, fs, acc, c :: rest =>
    if c = '"' then csvRun .quoteInQuoted fs acc rest
    else csvRun .inQuoted fs (acc ++ [c]) rest
  | .quoteInQuoted, fs, acc, c :: rest =>
    if c = '"' then csvRun .inQuoted fs (acc ++ ['"']) rest
    else if c = ',' then csvRun .startField (fs ++ [acc]) [] rest
    else if c = '\n' ∨ c = '\r' then csvRun .eatCrnl (fs ++ [acc]) [] rest
    else csvRun .inField fs (acc ++ [c]) rest
  | .eatCrnl, fs, _, c :: rest =>
    if c = '\n' ∨ c = '\r' then csvRun .eatCrnl fs [] rest else .err

/-- `next(csv.reader([s], skipinitialspace=True))` on one chunk `s`. -/
def csvNext (s : LC) : CsvOut :=
  if s.contains '\x00' then .err
  else
    match s with
    | [] => .noRecord
    | c :: rest =>
      if c = '\n' ∨ c = '\r' then
        if rest.all (fun d => d == '\n' || d == '\r') then .noRecord else .err
      else csvRun .startField [] [] (c :: rest)

/-! ### Errors

`main` only catches `ValueError` (`POut.valueErr`); everything else
(`IndexError` from `mapping[0]` / `mapping.pop(0)`, `StopIteration` from
`next(reader)`, `csv.Error`) escapes and aborts the whole run
(`POut.crash`). -/

inductive PErr
  | guidLength (g : LC)
  | guidMalformed (g : LC)
  | cannotInferPlatform
  | missingPlatform
  | invalidPlatform (p : LC)
  | unrecognizedKey (k : LC)
  | invalidValue (butt v : LC)
  | duplicateKeys (msg : LC)
  | unpackMismatch (kv : LC)
deriving DecidableEq

inductive Crash
  | indexError | stopIteration | csvError
deriving DecidableEq

inductive POut
  | valueErr (e : PErr)
  | crash (c : Crash)
deriving DecidableEq

inductive Res (α : Type) where
  | ok (a : α)
  | err (e : POut)
deriving DecidableEq

/-! ### Mapping.set_guid -/

/-- `string.hexdigits`. -/
def hexChars : LC := "0123456789abcdefABCDEF".toList

def set_guid (g : LC) : Res LC :=
  if g = "xinput".toList then .ok g
  else if g.length ≠ 32 then .err (.valueErr (.guidLength g))
  else if g.all (fun c => hexChars.contains c) then .ok g
  else .err (.valueErr (.guidMalformed g))

/-! ### Mapping.set_platform -/

def platformsList : List LC :=
  ["Windows".toList, "Mac OS X".toList, "Linux".toList, "Android".toList]

def pidvidSentinel : LC := "504944564944".toList

def zeros12 : LC := "000000000000".toList

/-- `Mapping.set_platform` together with `Mapping.__get_missing_platform`.
Returns the platform and the remaining token list (the matched
`platform:` token is removed; an inferred platform removes nothing). -/
def set_platform (guid : LC) (mapping : List LC) (add_missing : Bool) :
    Res (LC × List LC) :=
  match mapping.find? (fun t => containsSub t ("platform:".toList)) with
  | some tok =>
    match (pySplit ':' tok).get? 1 with
    | none => .err (.crash .indexError)
    | some p =>
      if platformsList.contains p then .ok (p, mapping.erase tok)
      else .err (.valueErr (.invalidPlatform p))
  | none =>
    if add_missing then
      if pySlice guid 20 32 = pidvidSentinel then .ok ("Windows".toList, mapping)
      else if pySlice guid 4 16 = zeros12 ∧ pySlice guid 20 32 = zeros12 then
        .ok ("Mac OS X".toList, mapping)
      else .err (.valueErr .cannotInferPlatform)
    else .err (.valueErr .missingPlatform)

/-! ### The __keys dict

The source literal is missing a comma (and a value) after `"+righty"`, so
Python's adjacent string-literal concatenation makes the single key
`"+righty-leftx"`; the dict has 28 keys, all initialized to the empty
string.  Written in source order (which happens to be ascending). -/

def keysInit : List (LC × LC) :=
  [("+leftx".toList, []), ("+lefty".toList, []), ("+rightx".toList, []),
   ("+righty-leftx".toList, []),
   ("-lefty".toList, []), ("-rightx".toList, []), ("-righty".toList, []),
   ("a".toList, []), ("b".toList, []), ("back".toList, []),
   ("dpdown".toList, []), ("dpleft".toList, []), ("dpright".toList, []),
   ("dpup".toList, []), ("guide".toList, []), ("leftshoulder".toList, []),
   ("leftstick".toList, []), ("lefttrigger".toList, []), ("leftx".toList, []),
   ("lefty".toList, []), ("rightshoulder".toList, []), ("rightstick".toList, []),
   ("righttrigger".toList, []), ("rightx".toList, []), ("righty".toList, []),
   ("start".toList, []), ("x".toList, []), ("y".toList, [])]

/-- Python dict membership test `k in d`. -/
def kmHas : List (LC × LC) → LC → Bool
  | [], _ => false
  | kv :: rest, k => kv.1 == k || kmHas rest k

/-- Python dict read `d[k]` (total here; callers check `kmHas` first). -/
def kmGet : List (LC × LC) → LC → LC
  | [], _ => []
  | kv :: rest, k => if kv.1 == k then kv.2 else kmGet rest k

/-- Python dict write `d[k] = v` for a key already present. -/
def kmSet : List (LC × LC) → LC → LC → List (LC × LC)
  | [], _, _ => []
  | kv :: rest, k, v => if kv.1 == k then (kv.1, v) :: rest else kv :: kmSet rest k v

/-! ### BUTTON_REGEXES and the value loop of Mapping.set_keys

`"+a" "-a" "a"` use `^[0-9]+\~?$`, `"b"` uses `^[0-9]+$`, `"h"` uses
`^[0-9]+\.(0|1|2|4|8|3|6|12|9)$`.  The regexes are anchored and
deterministic, so the bodies are modelled as boolean functions; in Python
`re`, `$` (without `re.MULTILINE`) matches at the very end of the string
AND just before a newline that is the string's last character, so each
matcher also accepts its body followed by one trailing `\n`. -/

/-- The regex body `[0-9]+\~?` against the whole string. -/
def axisBody (r : LC) : Bool :=
  r.takeWhile Char.isDigit ≠ [] &&
    (r.dropWhile Char.isDigit = [] || r.dropWhile Char.isDigit = ['~'])

/-- `re.match(r"^[0-9]+\~?$", r)`: the body matches all of `r`, or all of
`r` but a single trailing newline. -/
def axisOk (r : LC) : Bool :=
  axisBody r || (r.getLast? == some '\n' && axisBody r.dropLast)

/-- The regex body `[0-9]+` against the whole string. -/
def buttonBody (r : LC) : Bool := r ≠ [] && r.all Char.isDigit

/-- `re.match(r"^[0-9]+$", r)` with the trailing-newline `$` semantics. -/
def buttonOk (r : LC) : Bool :=
  buttonBody r || (r.getLast? == some '\n' && buttonBody r.dropLast)

def hatMasks : List LC :=
  ["0".toList, "1".toList, "2".toList, "4".toList, "8".toList,
   "3".toList, "6".toList, "12".toList, "9".toList]

/-- The regex body `[0-9]+\.(0|1|2|4|8|3|6|12|9)` against the whole string. -/
def hatBody (r : LC) : Bool :=
  r.takeWhile Char.isDigit ≠ [] &&
    match r.dropWhile Char.isDigit with
    | c :: m => c == '.' && hatMasks.contains m
    | [] => false

/-- `re.match(r"^[0-9]+\.(0|1|2|4|8|3|6|12|9)$", r)` with the
trailing-newline `$` semantics. -/
def hatOk (r : LC) : Bool :=
  hatBody r || (r.getLast? == some '\n' && hatBody r.dropLast)

inductive VOut
  | accepted
  | dropped
  | invalid (butt v : LC)
deriving DecidableEq

/-- One iteration body of the `for butt,regex in self.BUTTON_REGEXES.items()`
loop: the value starts with `butt`, the remainder is
`button_val.replace(butt, "")` (ALL occurrences removed, not just the
prefix), and a failing regex raises `ValueError("Invalid value.", butt, val)`. -/
def tryKind (butt : LC) (ok : LC → Bool) (v : LC) : VOut :=
  let rem := pyReplace v butt
  if ok rem then .accepted else .invalid butt rem

/-- Outcome of the BUTTON_REGEXES loop on one value: the first prefix (in
dict order `+a, -a, a, b, h`) that matches wins; if none matches the loop
falls through and the value is silently ignored (`.dropped`). -/
def valueOutcome (v : LC) : VOut :=
  if ("+a".toList).isPrefixOf v then tryKind "+a".toList axisOk v
  else if ("-a".toList).isPrefixOf v then tryKind "-a".toList axisOk v
  else if ("a".toList).isPrefixOf v then tryKind "a".toList axisOk v
  else if ("b".toList).isPrefixOf v then tryKind "b".toList buttonOk v
  else if ("h".toList).isPrefixOf v then tryKind "h".toList hatOk v
  else .dropped

/-- `"%s (was %s:%s), " % (kv, button_key, self.__keys[button_key])`. -/
def renderDup (kv k old : LC) : LC :=
  kv ++ " (was ".toList ++ k ++ ':' :: old ++ "), ".toList

/-- The loop of `Mapping.set_keys`: state is the keys dict, the `throw`
flag and the accumulated duplicate message. -/
def set_keys_loop (ks : List (LC × LC)) (thr : Bool) (msg : LC) :
    List LC → Res (List (LC × LC) × Bool × LC)
  | [] => .ok (ks, thr, msg)
  | kv :: rest =>
    match pySplit ':' kv with
    | [k, v] =>
      if kmHas ks k = false then .err (.valueErr (.unrecognizedKey k))
      else if kmGet ks k ≠ [] then
        set_keys_loop ks true (msg ++ renderDup kv k (kmGet ks k)) rest
      else
        match valueOutcome v with
        | .invalid b bad => .err (.valueErr (.invalidValue b bad))
        | .dropped => set_keys_loop ks thr msg rest
        | .accepted => set_keys_loop (kmSet ks k v) thr msg rest
    | _ => .err (.valueErr (.unpackMismatch kv))

/-- `Mapping.set_keys`. -/
def set_keys (ts : List LC) : Res (List (LC × LC)) :=
  match set_keys_loop keysInit false [] ts with
  | .err e => .err e
  | .ok (ks, thr, msg) =>
    if thr then .err (.valueErr (.duplicateKeys msg)) else .ok ks

/-! ### Mapping -/

structure Mapping where
  guid : LC
  name : LC
  platform : LC
  keys : List (LC × LC)
  linenumber : Nat
deriving DecidableEq

/-- `Mapping.__init__(mappingstring, linenumber, add_missing_platform)`:
csv-split the line, drop empty fields, take GUID and name positionally,
resolve the platform, process the control tokens, and finally keep only
the non-empty control entries. -/
def Mapping.parse (line : LC) (linenumber : Nat) (add_missing_platform : Bool) :
    Res Mapping :=
  match csvNext line with
  | .err => .err (.crash .csvError)
  | .noRecord => .err (.crash .stopIteration)
  | .row fields =>
    match fields.filter (fun f => f != []) with
    | [] => .err (.crash .indexError)
    | [g] =>
      match set_guid g with
      | .err e => .err e
      | .ok _ => .err (.crash .indexError)
    | g :: n :: rest =>
      match set_guid g with
      | .err e => .err e
      | .ok guid =>
        let name := collapseSpaces n
        match set_platform guid rest add_missing_platform with
        | .err e => .err e
        | .ok (platform, rest') =>
          match set_keys rest' with
          | .err e => .err e
          | .ok km =>
            .ok ⟨guid, name, platform, km.filter (fun kv => kv.2 != []), linenumber⟩

/-! ### Mapping.serialize

`sorted(self.__keys.items())` sorts pairs by Python tuple `<`, i.e.
lexicographically by code points on the key, value as tie break. -/

def strLtB : LC → LC → Bool
  | [], [] => false
  | [], _ :: _ => true
  | _ :: _, [] => false
  | a :: as, b :: bs =>
    if a.toNat < b.toNat then true
    else if b.toNat < a.toNat then false
    else strLtB as bs

def pairLeB (a b : LC × LC) : Bool :=
  strLtB a.1 b.1 || (a.1 == b.1 && (strLtB a.2 b.2 || a.2 == b.2))

def insertSorted (a : LC × LC) : List (LC × LC) → List (LC × LC)
  | [] => [a]
  | b :: t => if pairLeB a b then a :: b :: t else b :: insertSorted a t

/-- Python `sorted` on key/value pairs (any comparison sort agrees on the
distinct tuples that occur here). -/
def pySorted (l : List (LC × LC)) : List (LC × LC) := l.foldr insertSorted []

/-- `Mapping.serialize`: guid, name, each control as `key:value,` in sorted
order, then `platform:<p>,` last. -/
def Mapping.serialize (m : Mapping) : LC :=
  m.guid ++ ',' :: m.name ++ ',' ::
    ((pySorted m.keys).foldr (fun kv acc => kv.1 ++ ':' :: kv.2 ++ ',' :: acc) []) ++
    "platform:".toList ++ m.platform ++ [',']

/-! ### Mapping.convert_guid -/

def Mapping.convert_guid (m : Mapping) : Mapping :=
  if m.platform = "Windows".toList then
    if pySlice m.guid 20 32 ≠ pidvidSentinel then m
    else
      let g1 := m.guid.take 20 ++ zeros12
      let g2 := g1.take 16 ++ pySlice g1 4 8 ++ g1.drop 20
      let g3 := g2.take 8 ++ g2.take 4 ++ g2.drop 12
      let g4 := "03000000".toList ++ g3.drop 8
      { m with guid := g4.map Char.toLower }
  else if m.platform = "Mac OS X".toList then
    if pySlice m.guid 4 16 ≠ zeros12 ∨ pySlice m.guid 20 32 ≠ zeros12 then m
    else
      let g1 := m.guid.take 20 ++ zeros12
      let g3 := g1.take 8 ++ g1.take 4 ++ g1.drop 12
      let g4 := "03000000".toList ++ g3.drop 8
      { m with guid := g4.map Char.toLower }
  else m

/-! ### The registry in main -/

abbrev Registry := List (LC × List (LC × Mapping))

/-- `mappings_dict` before any inserts. -/
def emptyRegistry : Registry :=
  [("Windows".toList, []), ("Mac OS X".toList, []),
   ("Linux".toList, []), ("Android".toList, [])]

def regLookup : Registry → LC → Option (List (LC × Mapping))
  | [], _ => none
  | pv :: rest, p => if pv.1 == p then some pv.2 else regLookup rest p

def innerLookup : List (LC × Mapping) → LC → Option Mapping
  | [], _ => none
  | gm :: rest, g => if gm.1 == g then some gm.2 else innerLookup rest g

def regStore : Registry → LC → List (LC × Mapping) → Registry
  | [], _, _ => []
  | pv :: rest, p, inner =>
    if pv.1 == p then (pv.1, inner) :: rest else pv :: regStore rest p inner

inductive InsResult
  | inserted (reg : Registry)
  | dup (prevLine : Nat) (reg : Registry)
  | keyError
deriving DecidableEq

/-- The per-record body of the load loop in `main`: a collision leaves the
registry unchanged and reports the previous mapping's line number; a fresh
`(platform, guid)` pair is appended to the platform's dict. -/
def registryInsert (reg : Registry) (m : Mapping) : InsResult :=
  match regLookup reg m.platform with
  | none => .keyError
  | some inner =>
    match innerLookup inner m.guid with
    | some prev => .dup prev.linenumber reg
    | none => .inserted (regStore reg m.platform (inner ++ [(m.guid, m)]))

/-! ### Specification-side definitions

These follow the wording of the claims (amended where the code forces an
amendment); the theorems below compare them with the code-side definitions
above. -/

/-- The Windows GUID transform exactly as the claim words it: zero the hex
characters at 0-indexed positions 20..32 (giving `g`); `new1` =
`g[0:16] + g[4:8] + g[20:32]`; `new2` = `new1[0:8] + new1[0:4] + new1[12:32]`;
prefix `"03000000"` keeping the trailing 24 characters; lower-case. -/
def specWinGuid (guid : LC) : LC :=
  let g := guid.take 20 ++ zeros12
  let new1 := pySlice g 0 16 ++ pySlice g 4 8 ++ pySlice g 20 32
  let new2 := pySlice new1 0 8 ++ pySlice new1 0 4 ++ pySlice new1 12 32
  ("03000000".toList ++ pySlice new2 8 32).map Char.toLower

/-- Claim-side axis grammar: a non-negative integer optionally suffixed
with `~`. -/
def axisSpec (r : LC) : Bool :=
  (r ≠ [] && r.all Char.isDigit) ||
    (r.getLast? == some '~' && r.dropLast ≠ [] && r.dropLast.all Char.isDigit)

/-- Claim-side button grammar: a bare non-negative integer. -/
def buttonSpec (r : LC) : Bool := r ≠ [] && r.all Char.isDigit

/-- Claim-side hat grammar: `<int>.<mask>` with the mask drawn from the
literal set {0,1,2,4,8,3,6,12,9}. -/
def hatSpec (r : LC) : Bool :=
  match pySplit '.' r with
  | [ds, m] => ds ≠ [] && ds.all Char.isDigit && hatMasks.contains m
  | _ => false

/-- Claim-side rendering of Python's `$`: a pattern body also matches a
string that is the body's match followed by one trailing newline. -/
def dollarSpec (body : LC → Bool) (r : LC) : Bool :=
  body r || (r.getLast? == some '\n' && body r.dropLast)

/-- The five input-kind prefixes with their claim-side grammars (each under
the trailing-newline `$` allowance), in the order the source tries them. -/
def kindSpecTable : List (LC × (LC → Bool)) :=
  [("+a".toList, dollarSpec axisSpec), ("-a".toList, dollarSpec axisSpec),
   ("a".toList, dollarSpec axisSpec), ("b".toList, dollarSpec buttonSpec),
   ("h".toList, dollarSpec hatSpec)]

/-- Modelled from the amended claim: the first matching prefix wins, every
occurrence of that prefix string is removed from the value (this is the
amendment: the source uses `str.replace`, not prefix-stripping), and the
token is accepted iff the remainder matches that kind's grammar. -/
def specValueOutcome (v : LC) : VOut :=
  match kindSpecTable.find? (fun pk => pk.1.isPrefixOf v) with
  | none => .dropped
  | some pk =>
    if pk.2 (pyReplace v pk.1) then .accepted else .invalid pk.1 (pyReplace v pk.1)

/-- Claim-side description of the duplicates gathered by `set_keys`: walk
the tokens, tracking assignments; every token whose (recognized) key already
holds a non-empty value is recorded as `(token, key, earlier value)`. -/
def dupTokens (ks : List (LC × LC)) : List LC → List (LC × LC × LC)
  | [] => []
  | kv :: rest =>
    match pySplit ':' kv with
    | [k, v] =>
      if kmGet ks k ≠ [] then (kv, k, kmGet ks k) :: dupTokens ks rest
      else
        match valueOutcome v with
        | .accepted => dupTokens (kmSet ks k v) rest
        | _ => dupTokens ks rest
    | _ => dupTokens ks rest

/-- Render every gathered duplicate the way the source's error message does. -/
def renderDups (ds : List (LC × LC × LC)) : LC :=
  ds.foldr (fun d acc => renderDup d.1 d.2.1 d.2.2 ++ acc) []

/-! ### Auxiliary definitions used by the proofs -/

/-- `f1,f2,...,fn,` — every field followed by a comma (the shape of
`Mapping.serialize` output). -/
def joinComma (fs : List LC) : LC := fs.foldr (fun f acc => f ++ ',' :: acc) []

/-- Fold `kmSet` over a list of assignments. -/
def kmSetAll (ks : List (LC × LC)) (ps : List (LC × LC)) : List (LC × LC) :=
  ps.foldl (fun a p => kmSet a p.1 p.2) ks

/-- A csv field that the reader hands back verbatim: non-empty, free of
delimiters/newlines/NUL, and not starting with a quote or a space. -/
def plainTok (f : LC) : Prop :=
  f ≠ [] ∧ (∀ c ∈ f, c ≠ ',' ∧ c ≠ '\n' ∧ c ≠ '\r' ∧ c ≠ '\x00') ∧
    f.head? ≠ some '"' ∧ f.head? ≠ some ' '

/-- The characters an accepted control value can be built from. -/
def valueChar (c : Char) : Prop :=
  c.isDigit ∨ c = '+' ∨ c = '-' ∨ c = 'a' ∨ c = 'b' ∨ c = 'h' ∨ c = '~' ∨ c = '.'

/-! ## Lemmas -/

theorem lcBeqComm (x y : LC) : (x == y) = (y == x) := by
  by_cases h : x = y
  · subst h; rfl
  · rw [beq_eq_false_iff_ne.2 h, beq_eq_false_iff_ne.2 (Ne.symm h)]

theorem kmHas_eq_contains (ks : List (LC × LC)) (k : LC) :
    kmHas ks k = (ks.map Prod.fst).contains k := by
  induction ks with
  | nil => rfl
  | cons kv rest ih =>
    simp only [kmHas, ih, List.map_cons, List.contains_cons]
    rw [lcBeqComm]

theorem pySplit_no_delim {d : Char} {a : LC} (h : d ∉ a) : pySplit d a = [a] := by
  induction a with
  | nil => rfl
  | cons c rest ih =>
    have hc : c ≠ d := fun e => h (e ▸ List.mem_cons_self c rest)
    have hr : d ∉ rest := fun e => h (List.mem_cons_of_mem c e)
    simp [pySplit, ih hr, hc]

theorem pySplit_token {d : Char} {a b : LC} (ha : d ∉ a) (hb : d ∉ b) :
    pySplit d (a ++ d :: b) = [a, b] := by
  induction a with
  | nil => simp [pySplit, pySplit_no_delim hb]
  | cons c rest ih =>
    have hc : c ≠ d := fun e => ha (e ▸ List.mem_cons_self c rest)
    have hr : d ∉ rest := fun e => ha (List.mem_cons_of_mem c e)
    simp [pySplit, ih hr, hc]

theorem pySplit_ne_nil (d : Char) (s : LC) : pySplit d s ≠ [] := by
  induction s with
  | nil => simp [pySplit]
  | cons c rest ih =>
    simp only [pySplit]
    rcases h : pySplit d rest with _ | ⟨f, fs⟩
    · exact absurd h ih
    · by_cases hc : c = d <;> simp [hc]

theorem pySplit_length_ge_two {d : Char} {s : LC} (h : d ∈ s) :
    2 ≤ (pySplit d s).length := by
  induction s with
  | nil => cases h
  | cons c rest ih =>
    simp only [pySplit]
    rcases hr : pySplit d rest with _ | ⟨f, fs⟩
    · exact absurd hr (pySplit_ne_nil d rest)
    · by_cases hc : c = d
      · simp [hc]
      · have hm : d ∈ rest := by
          rcases List.mem_cons.1 h with h1 | h1
          · exact absurd h1.symm hc
          · exact h1
        have := ih hm
        rw [hr] at this
        simpa [hc] using this

theorem containsSub_mem {s pat : LC} (h : containsSub s pat = true) :
    ∀ c ∈ pat, c ∈ s := by
  induction s with
  | nil =>
    intro c hc
    simp only [containsSub] at h
    have : pat = [] := by
      cases pat with
      | nil => rfl
      | cons p t => simp [List.isPrefixOf] at h
    subst this; cases hc
  | cons a rest ih =>
    intro c hc
    simp only [containsSub, Bool.or_eq_true] at h
    rcases h with h | h
    · have hp : pat <+: a :: rest := by
        rwa [← List.isPrefixOf_iff_prefix]
      exact hp.subset hc
    · exact List.mem_cons_of_mem a (ih h c hc)

theorem set_guid_no_crash (g : LC) (c : Crash) : set_guid g ≠ .err (.crash c) := by
  intro h
  unfold set_guid at h
  split_ifs at h <;> simp_all

theorem set_keys_loop_no_crash :
    ∀ (ts : List LC) (ks : List (LC × LC)) (thr : Bool) (msg : LC) (c : Crash),
      set_keys_loop ks thr msg ts ≠ .err (.crash c) := by
  intro ts
  induction ts with
  | nil => intro ks thr msg c h; simp [set_keys_loop] at h
  | cons kv rest ih =>
    intro ks thr msg c h
    simp only [set_keys_loop] at h
    rcases hsp : pySplit ':' kv with _ | ⟨k, _ | ⟨v, _ | _⟩⟩ <;> rw [hsp] at h
    · simp at h
    · simp at h
    · simp only [] at h
      split_ifs at h with h1 h2
      · simp at h
      · exact ih _ _ _ _ h
      · rcases hv : valueOutcome v with _ | _ | ⟨b, bad⟩ <;> rw [hv] at h
        · exact ih _ _ _ _ h
        · exact ih _ _ _ _ h
        · simp at h
    · simp at h

theorem set_keys_no_crash (ts : List LC) (c : Crash) :
    set_keys ts ≠ .err (.crash c) := by
  intro h
  unfold set_keys at h
  rcases hl : set_keys_loop keysInit false [] ts with ⟨ks, thr, msg⟩ | e <;>
    rw [hl] at h
  · cases thr <;> simp at h
  · simp at h
    exact set_keys_loop_no_crash ts keysInit false [] c (h ▸ hl)

theorem get?_one_of_two_le {α : Type} {l : List α} (h : 2 ≤ l.length) :
    ∃ x, l.get? 1 = some x := by
  rcases l with _ | ⟨a, _ | ⟨b, t⟩⟩ <;> simp_all

theorem set_platform_no_crash (guid : LC) (mapping : List LC) (amp : Bool) (c : Crash) :
    set_platform guid mapping amp ≠ .err (.crash c) := by
  intro h
  rcases hf : mapping.find? (fun t => containsSub t ("platform:".toList)) with _ | tok
  · simp only [set_platform, hf] at h
    split_ifs at h <;> simp_all
  · have hsub : containsSub tok ("platform:".toList) = true := by
      simpa using List.find?_some hf
    have hcolon : ':' ∈ tok := containsSub_mem hsub ':' (by decide)
    obtain ⟨p, hp⟩ := get?_one_of_two_le (pySplit_length_ge_two hcolon)
    simp only [set_platform, hf, hp] at h
    split_ifs at h
    simp_all

theorem regLookup_regStore_self (reg : Registry) (p : LC)
    (inner x : List (LC × Mapping)) (h : regLookup reg p = some x) :
    regLookup (regStore reg p inner) p = some inner := by
  induction reg with
  | nil => simp [regLookup] at h
  | cons pv rest ih =>
    by_cases hpv : pv.1 == p
    · simp [regStore, regLookup, hpv]
    · simp only [regLookup, hpv] at h
      simp [regStore, regLookup, hpv, ih h]

/-! ## Claim C9 -/

/-- C9 counterexample: parsing is NOT total on arbitrary lines.  The line
`"xinput,"` has a single non-empty field; `set_guid` succeeds on `xinput`
and then `set_name(mapping[0])` raises an uncaught `IndexError`, which is
not a per-line `ValueError` and aborts the whole load pass. -/
theorem claim_C9_counterexample :
    Mapping.parse ("xinput,".toList) 1 false = .err (.crash .indexError) := by
  decide

/-- C9 (amended): for every line whose csv record has at least two non-empty
fields, `Mapping.parse` returns either a record or a `ValueError`-style
per-line error — never an uncaught crash.  (Lines with fewer than two
non-empty fields raise an uncaught `IndexError`, and csv-level failures
are uncaught `csv.Error`/`StopIteration`.) -/
theorem claim_C9_totality_amended (line : LC) (ln : Nat) (amp : Bool) (fs : List LC)
    (hrow : csvNext line = .row fs)
    (hlen : 2 ≤ (fs.filter (fun f => f != [])).length) (c : Crash) :
    Mapping.parse line ln amp ≠ .err (.crash c) := by
  intro h
  simp only [Mapping.parse, hrow] at h
  rcases hfe : fs.filter (fun f => f != []) with _ | ⟨g, _ | ⟨n, rest⟩⟩
  · rw [hfe] at hlen; simp at hlen
  · rw [hfe] at hlen; simp at hlen
  · simp only [hfe] at h
    rcases hsg : set_guid g with a | e <;> simp only [hsg] at h
    · rcases hsp : set_platform a rest amp with ⟨pf, rest'⟩ | e <;>
        simp only [hsp] at h
      · rcases hsk : set_keys rest' with km | e <;> simp only [hsk] at h
        · cases h
        · cases h
          exact set_keys_no_crash rest' c hsk
      · cases h
        exact set_platform_no_crash a rest amp c hsp
    · cases h
      exact set_guid_no_crash g c hsg

/-- Witness for C9 (amended) at a concrete well-formed line. -/
theorem claim_C9_witness :
    csvNext ("xinput,Pad,platform:Linux,".toList) =
      .row ["xinput".toList, "Pad".toList, "platform:Linux".toList, []] ∧
    2 ≤ (((["xinput".toList, "Pad".toList, "platform:Linux".toList, []] : List LC)).filter
          (fun f => f != [])).length ∧
    Mapping.parse ("xinput,Pad,platform:Linux,".toList) 1 false ≠
      .err (.crash .indexError) :=
  ⟨by decide, by decide,
    claim_C9_totality_amended ("xinput,Pad,platform:Linux,".toList) 1 false
      ["xinput".toList, "Pad".toList, "platform:Linux".toList, []]
      (by decide) (by decide) .indexError⟩

/-! ## Claim C10 -/

/-- C10: because of the missing comma in the `__keys` literal, the accepted
key set contains neither `+righty` nor `-leftx` but does contain the
concatenated key `+righty-leftx`; a token with key `-leftx` or `+righty`
fails with `Unrecognized key`, while `+righty-leftx` is accepted. -/
theorem claim_C10_key_set :
    kmHas keysInit ("+righty".toList) = false ∧
    kmHas keysInit ("-leftx".toList) = false ∧
    kmHas keysInit ("+righty-leftx".toList) = true ∧
    (∀ ks thr msg rest, ks.map Prod.fst = keysInit.map Prod.fst →
      set_keys_loop ks thr msg ("-leftx:a0".toList :: rest) =
          .err (.valueErr (.unrecognizedKey ("-leftx".toList))) ∧
        set_keys_loop ks thr msg ("+righty:a0".toList :: rest) =
          .err (.valueErr (.unrecognizedKey ("+righty".toList)))) ∧
    Mapping.parse ("xinput,Pad,platform:Linux,-leftx:a0,".toList) 1 false =
      .err (.valueErr (.unrecognizedKey ("-leftx".toList))) ∧
    Mapping.parse ("xinput,Pad,platform:Linux,+righty:a0,".toList) 1 false =
      .err (.valueErr (.unrecognizedKey ("+righty".toList))) ∧
    Mapping.parse ("xinput,Pad,platform:Linux,+righty-leftx:a0,".toList) 1 false =
      .ok ⟨"xinput".toList, "Pad".toList, "Linux".toList,
           [("+righty-leftx".toList, "a0".toList)], 1⟩ := by
  refine ⟨by decide, by decide, by decide, ?_, by decide, by decide, by decide⟩
  intro ks thr msg rest hks
  have h1 : kmHas ks ("-leftx".toList) = false := by
    rw [kmHas_eq_contains, hks, ← kmHas_eq_contains]; decide
  have h2 : kmHas ks ("+righty".toList) = false := by
    rw [kmHas_eq_contains, hks, ← kmHas_eq_contains]; decide
  constructor
  · have hsp : pySplit ':' ("-leftx:a0".toList) = ["-leftx".toList, "a0".toList] := by
      decide
    simp only [set_keys_loop]
    rw [hsp]
    simp only [h1]
    simp
  · have hsp : pySplit ':' ("+righty:a0".toList) = ["+righty".toList, "a0".toList] := by
      decide
    simp only [set_keys_loop]
    rw [hsp]
    simp only [h2]
    simp

/-- Witness for the general part of C10. -/
theorem claim_C10_witness :
    keysInit.map Prod.fst = keysInit.map Prod.fst ∧
    set_keys_loop keysInit false [] ("-leftx:a0".toList :: []) =
      .err (.valueErr (.unrecognizedKey ("-leftx".toList))) :=
  ⟨rfl, (claim_C10_key_set.2.2.2.1 keysInit false [] [] rfl).1⟩

/-! ## Claim C3 -/

/-- C3 counterexample: the claim expects `UnrecognizedKey("a")`, but `a`
(the south face button) IS a member of the `__keys` dict, so the example
line parses successfully with the control `a:b0` recognized. -/
theorem claim_C3_counterexample :
    Mapping.parse
      ("030000005e040000a102000000010000,Xbox 360 Wireless Receiver,platform:Windows,a:b0,".toList)
      1 false =
    .ok ⟨"030000005e040000a102000000010000".toList,
         "Xbox 360 Wireless Receiver".toList, "Windows".toList,
         [("a".toList, "b0".toList)], 1⟩ := by
  decide

/-- C3 (amended): parsing the example line yields guid, name and platform as
the claim states, and the single recognized control `a:b0`; no error is
raised because `a` is in the closed key set. -/
theorem claim_C3_amended :
    ∃ m : Mapping,
      Mapping.parse
        ("030000005e040000a102000000010000,Xbox 360 Wireless Receiver,platform:Windows,a:b0,".toList)
        1 false = .ok m ∧
      m.guid = "030000005e040000a102000000010000".toList ∧
      m.name = "Xbox 360 Wireless Receiver".toList ∧
      m.platform = "Windows".toList ∧
      m.keys = [("a".toList, "b0".toList)] ∧
      kmHas keysInit ("a".toList) = true :=
  ⟨⟨"030000005e040000a102000000010000".toList,
    "Xbox 360 Wireless Receiver".toList, "Windows".toList,
    [("a".toList, "b0".toList)], 1⟩,
   by decide, by decide, by decide, by decide, by decide, by decide⟩

/-! ## Claim C4 -/

/-- C4 counterexample: a recognized key whose value (`x0`) starts with none
of the five prefixes is silently dropped — the parse SUCCEEDS with no
control entry and no `InvalidValue` error, contradicting the claim. -/
theorem claim_C4_counterexample :
    Mapping.parse ("xinput,Pad,platform:Linux,a:x0,".toList) 1 false =
      .ok ⟨"xinput".toList, "Pad".toList, "Linux".toList, [], 1⟩ := by
  decide

/-- C4 (amended): a control value that starts with none of the recognized
prefixes makes the `BUTTON_REGEXES` loop fall through without raising:
the token is skipped and the field is silently dropped from the record. -/
theorem claim_C4_silent_drop_amended :
    (∀ v : LC,
      ("+a".toList).isPrefixOf v = false → ("-a".toList).isPrefixOf v = false →
      ("a".toList).isPrefixOf v = false → ("b".toList).isPrefixOf v = false →
      ("h".toList).isPrefixOf v = false → valueOutcome v = .dropped) ∧
    (∀ ks thr msg (k v : LC) rest, ':' ∉ k → ':' ∉ v →
      kmHas ks k = true → kmGet ks k = [] → valueOutcome v = .dropped →
      set_keys_loop ks thr msg ((k ++ ':' :: v) :: rest) =
        set_keys_loop ks thr msg rest) := by
  constructor
  · intro v h1 h2 h3 h4 h5
    simp only [valueOutcome]
    rw [h1, h2, h3, h4, h5]
    simp
  · intro ks thr msg k v rest hk hv hhas hget hvo
    simp only [set_keys_loop]
    rw [pySplit_token hk hv]
    simp [hhas, hget, hvo]

/-- Witness for C4 (amended) at the concrete token `a:x0`. -/
theorem claim_C4_witness :
    (':' ∉ ("a".toList : LC)) ∧ (':' ∉ ("x0".toList : LC)) ∧
    kmHas keysInit ("a".toList) = true ∧ kmGet keysInit ("a".toList) = [] ∧
    valueOutcome ("x0".toList) = .dropped ∧
    set_keys_loop keysInit false [] (("a".toList ++ ':' :: "x0".toList) :: []) =
      set_keys_loop keysInit false [] [] :=
  ⟨by decide, by decide, by decide, by decide, by decide,
   claim_C4_silent_drop_amended.2 keysInit false [] ("a".toList) ("x0".toList) []
     (by decide) (by decide) (by decide) (by decide) (by decide)⟩

/-! ## Claim C6 -/

/-- C6: inserting two records with the same `(platform, guid)` into the
empty registry yields one success and one duplicate rejection that reports
the first record's line number; the rejected insert leaves the registry
unchanged and the key still maps to the first record. -/
theorem claim_C6_registry_duplicate (m1 m2 : Mapping)
    (hp : m2.platform = m1.platform) (hg : m2.guid = m1.guid)
    (hmem : m1.platform ∈ platformsList) :
    ∃ reg1, registryInsert emptyRegistry m1 = .inserted reg1 ∧
      registryInsert reg1 m2 = .dup m1.linenumber reg1 ∧
      regLookup reg1 m1.platform = some [(m1.guid, m1)] := by
  have e0 : regLookup emptyRegistry m1.platform = some [] := by
    simp only [platformsList, List.mem_cons, List.not_mem_nil, or_false] at hmem
    rcases hmem with h | h | h | h <;> rw [h] <;> decide
  have e2 : regLookup (regStore emptyRegistry m1.platform [(m1.guid, m1)])
      m1.platform = some [(m1.guid, m1)] :=
    regLookup_regStore_self emptyRegistry m1.platform [(m1.guid, m1)] [] e0
  refine ⟨regStore emptyRegistry m1.platform [(m1.guid, m1)], ?_, ?_, e2⟩
  · simp [registryInsert, e0, innerLookup]
  · rw [registryInsert, hp, hg, e2]
    simp [innerLookup]

/-- Witness for C6 at two concrete records sharing `(platform, guid)`. -/
theorem claim_C6_witness :
    ((⟨"xinput".toList, "B".toList, "Linux".toList, [], 7⟩ : Mapping).platform =
      (⟨"xinput".toList, "A".toList, "Linux".toList, [], 3⟩ : Mapping).platform) ∧
    ((⟨"xinput".toList, "B".toList, "Linux".toList, [], 7⟩ : Mapping).guid =
      (⟨"xinput".toList, "A".toList, "Linux".toList, [], 3⟩ : Mapping).guid) ∧
    (⟨"xinput".toList, "A".toList, "Linux".toList, [], 3⟩ : Mapping).platform ∈
      platformsList ∧
    ∃ reg1,
      registryInsert emptyRegistry ⟨"xinput".toList, "A".toList, "Linux".toList, [], 3⟩ =
        .inserted reg1 ∧
      registryInsert reg1 ⟨"xinput".toList, "B".toList, "Linux".toList, [], 7⟩ =
        .dup 3 reg1 ∧
      regLookup reg1 ("Linux".toList) =
        some [("xinput".toList, ⟨"xinput".toList, "A".toList, "Linux".toList, [], 3⟩)] :=
  ⟨rfl, rfl, by decide,
   claim_C6_registry_duplicate
     ⟨"xinput".toList, "A".toList, "Linux".toList, [], 3⟩
     ⟨"xinput".toList, "B".toList, "Linux".toList, [], 7⟩ rfl rfl (by decide)⟩

/-! ## Claims C1 and C7: Windows GUID migration -/

theorem pySlice_sentinel_length {g : LC} (h : pySlice g 20 32 = pidvidSentinel) :
    32 ≤ g.length := by
  have hl : (pySlice g 20 32).length = 12 := by rw [h]; rfl
  unfold pySlice at hl
  rw [List.length_take, List.length_drop, Nat.min_def] at hl
  split_ifs at hl <;> omega

theorem winGuidChain {g : LC} (h32 : 32 ≤ g.length) :
    "03000000".toList ++
      (((g.take 20 ++ zeros12).take 16 ++ pySlice (g.take 20 ++ zeros12) 4 8 ++
          (g.take 20 ++ zeros12).drop 20).take 8 ++
        ((g.take 20 ++ zeros12).take 16 ++ pySlice (g.take 20 ++ zeros12) 4 8 ++
          (g.take 20 ++ zeros12).drop 20).take 4 ++
        ((g.take 20 ++ zeros12).take 16 ++ pySlice (g.take 20 ++ zeros12) 4 8 ++
          (g.take 20 ++ zeros12).drop 20).drop 12).drop 8 =
    "03000000".toList ++ g.take 4 ++ ((g.drop 12).take 4 ++
      ((g.drop 4).take 4 ++ zeros12)) := by
  have l20 : (g.take 20).length = 20 := by
    rw [List.length_take]; exact min_eq_left (by omega)
  have e16 : (g.take 20 ++ zeros12).take 16 = g.take 16 := by
    rw [List.take_append_eq_append_take, l20]
    simp [List.take_take]
  have e48 : pySlice (g.take 20 ++ zeros12) 4 8 = (g.drop 4).take 4 := by
    unfold pySlice
    rw [List.drop_append_eq_append_drop, l20]
    have ld : ((g.take 20).drop 4).length = 16 := by
      rw [List.length_drop, l20]
    rw [List.take_append_eq_append_take, ld]
    simp [List.drop_take, List.take_take]
  have e20 : (g.take 20 ++ zeros12).drop 20 = zeros12 := by
    rw [List.drop_append_eq_append_drop, l20]
    simp [List.drop_eq_nil_of_le (le_of_eq l20)]
  rw [e16, e48, e20]
  have l16 : (g.take 16).length = 16 := by
    rw [List.length_take]; exact min_eq_left (by omega)
  have l4 : ((g.drop 4).take 4).length = 4 := by
    rw [List.length_take, List.length_drop]; exact min_eq_left (by omega)
  have lAB : (g.take 16 ++ (g.drop 4).take 4).length = 20 := by
    rw [List.length_append, l16, l4]
  have e8 : (g.take 16 ++ (g.drop 4).take 4 ++ zeros12).take 8 = g.take 8 := by
    rw [List.take_append_eq_append_take, lAB,
      List.take_append_eq_append_take, l16]
    simp [List.take_take]
  have e4 : (g.take 16 ++ (g.drop 4).take 4 ++ zeros12).take 4 = g.take 4 := by
    rw [List.take_append_eq_append_take, lAB,
      List.take_append_eq_append_take, l16]
    simp [List.take_take]
  have e12 : (g.take 16 ++ (g.drop 4).take 4 ++ zeros12).drop 12 =
      (g.drop 12).take 4 ++ (g.drop 4).take 4 ++ zeros12 := by
    rw [List.drop_append_eq_append_drop, lAB,
      List.drop_append_eq_append_drop, l16]
    simp [List.drop_take]
  rw [e8, e4, e12]
  have l8 : (g.take 8).length = 8 := by
    rw [List.length_take]; exact min_eq_left (by omega)
  have l4' : (g.take 4).length = 4 := by
    rw [List.length_take]; exact min_eq_left (by omega)
  have l84 : (g.take 8 ++ g.take 4).length = 12 := by
    rw [List.length_append, l8, l4']
  have e8' : (g.take 8 ++ g.take 4 ++
      ((g.drop 12).take 4 ++ (g.drop 4).take 4 ++ zeros12)).drop 8 =
      g.take 4 ++ ((g.drop 12).take 4 ++ (g.drop 4).take 4 ++ zeros12) := by
    rw [List.drop_append_eq_append_drop, l84,
      List.drop_append_eq_append_drop, l8]
    simp [List.drop_eq_nil_of_le (le_of_eq l8)]
  rw [e8']
  simp [List.append_assoc]

theorem pySlice_zero (x : LC) (b : Nat) : pySlice x 0 b = x.take b := by
  unfold pySlice; rw [List.drop_zero, Nat.sub_zero]

theorem pySlice_all {x : LC} (a b : Nat) (h : x.length ≤ b) :
    pySlice x a b = x.drop a := by
  unfold pySlice
  exact List.take_of_length_le (by rw [List.length_drop]; omega)

theorem specWinGuidChain {g : LC} (h32 : 32 ≤ g.length) :
    specWinGuid g =
      ("03000000".toList ++ g.take 4 ++ ((g.drop 12).take 4 ++
        ((g.drop 4).take 4 ++ zeros12))).map Char.toLower := by
  have l20 : (g.take 20).length = 20 := by
    rw [List.length_take]; exact min_eq_left (by omega)
  have lg1 : (g.take 20 ++ zeros12).length = 32 := by
    rw [List.length_append, l20]; rfl
  unfold specWinGuid
  dsimp only
  rw [pySlice_zero, pySlice_all 20 32 (le_of_eq lg1)]
  have lps : (pySlice (g.take 20 ++ zeros12) 4 8).length = 4 := by
    unfold pySlice
    rw [List.length_take, List.length_drop, lg1]
    rfl
  have ln1 : ((g.take 20 ++ zeros12).take 16 ++ pySlice (g.take 20 ++ zeros12) 4 8 ++
      (g.take 20 ++ zeros12).drop 20).length = 32 := by
    rw [List.length_append, List.length_append, List.length_take, List.length_drop,
      lps, lg1]
    rfl
  rw [pySlice_zero, pySlice_zero, pySlice_all 12 32 (le_of_eq ln1)]
  have ln2 : (((g.take 20 ++ zeros12).take 16 ++ pySlice (g.take 20 ++ zeros12) 4 8 ++
      (g.take 20 ++ zeros12).drop 20).take 8 ++
      ((g.take 20 ++ zeros12).take 16 ++ pySlice (g.take 20 ++ zeros12) 4 8 ++
        (g.take 20 ++ zeros12).drop 20).take 4 ++
      ((g.take 20 ++ zeros12).take 16 ++ pySlice (g.take 20 ++ zeros12) 4 8 ++
        (g.take 20 ++ zeros12).drop 20).drop 12).length = 32 := by
    rw [List.length_append, List.length_append, List.length_take, List.length_take,
      List.length_drop, ln1]
    rfl
  rw [pySlice_all 8 32 (le_of_eq ln2), winGuidChain h32]

/-- C1: for every Windows record whose GUID characters at positions 20..32
equal the PIDVID sentinel, `convert_guid` replaces the GUID exactly by the
claim's four-step slice formula (`specWinGuid`); every other Windows record
is left unchanged. -/
theorem claim_C1_windows_guid_migration (r : Mapping)
    (hp : r.platform = "Windows".toList) :
    (pySlice r.guid 20 32 = pidvidSentinel →
      r.convert_guid = { r with guid := specWinGuid r.guid }) ∧
    (pySlice r.guid 20 32 ≠ pidvidSentinel → r.convert_guid = r) := by
  constructor
  · intro hs
    have h32 := pySlice_sentinel_length hs
    unfold Mapping.convert_guid
    rw [hp, if_pos rfl, if_neg (fun h => h hs)]
    dsimp only
    rw [specWinGuidChain h32, winGuidChain h32]
  · intro hs
    unfold Mapping.convert_guid
    rw [hp, if_pos rfl, if_pos hs]

/-- Witness for C1 at a real legacy Windows GUID (a PS3 controller). -/
theorem claim_C1_witness :
    ((⟨"4c056802000000000000504944564944".toList, "PS3 Controller".toList,
        "Windows".toList, [], 7⟩ : Mapping)).platform = "Windows".toList ∧
    pySlice ("4c056802000000000000504944564944".toList) 20 32 = pidvidSentinel ∧
    (⟨"4c056802000000000000504944564944".toList, "PS3 Controller".toList,
        "Windows".toList, [], 7⟩ : Mapping).convert_guid =
      { (⟨"4c056802000000000000504944564944".toList, "PS3 Controller".toList,
          "Windows".toList, [], 7⟩ : Mapping) with
        guid := specWinGuid ("4c056802000000000000504944564944".toList) } :=
  ⟨rfl, by decide,
   (claim_C1_windows_guid_migration
     ⟨"4c056802000000000000504944564944".toList, "PS3 Controller".toList,
      "Windows".toList, [], 7⟩ rfl).1 (by decide)⟩

/-- C7: after migration the GUID's characters at positions 20..32 are all
zeros, no longer the legacy sentinel, so a second `convert_guid` is a no-op. -/
theorem claim_C7_migration_idempotent (r : Mapping)
    (hp : r.platform = "Windows".toList)
    (hs : pySlice r.guid 20 32 = pidvidSentinel) :
    pySlice r.convert_guid.guid 20 32 ≠ pidvidSentinel ∧
    r.convert_guid.convert_guid = r.convert_guid := by
  have h32 := pySlice_sentinel_length hs
  have la4 : (r.guid.take 4).length = 4 := by
    rw [List.length_take]; exact min_eq_left (by omega)
  have lb4 : ((r.guid.drop 4).take 4).length = 4 := by
    rw [List.length_take, List.length_drop]; exact min_eq_left (by omega)
  have ld4 : ((r.guid.drop 12).take 4).length = 4 := by
    rw [List.length_take, List.length_drop]; exact min_eq_left (by omega)
  have hc : r.convert_guid =
      { r with guid := ("03000000".toList ++ r.guid.take 4 ++ ((r.guid.drop 12).take 4 ++
          ((r.guid.drop 4).take 4 ++ zeros12))).map Char.toLower } := by
    unfold Mapping.convert_guid
    rw [hp, if_pos rfl, if_neg (fun h => h hs)]
    dsimp only
    rw [winGuidChain h32]
  have hN : ("03000000".toList ++ r.guid.take 4 ++ ((r.guid.drop 12).take 4 ++
      ((r.guid.drop 4).take 4 ++ zeros12))).drop 20 = zeros12 := by
    have l1 : ("03000000".toList ++ r.guid.take 4).length = 12 := by
      rw [List.length_append, la4]; rfl
    rw [List.drop_append_eq_append_drop, l1,
      List.drop_eq_nil_of_le (by rw [l1]; omega), List.nil_append]
    norm_num
    rw [List.drop_append_eq_append_drop, ld4,
      List.drop_eq_nil_of_le (by rw [ld4]; omega), List.nil_append]
    norm_num
    rw [List.drop_append_eq_append_drop, lb4,
      List.drop_eq_nil_of_le (le_of_eq lb4), List.nil_append]
    norm_num
  have hfact : pySlice (("03000000".toList ++ r.guid.take 4 ++ ((r.guid.drop 12).take 4 ++
      ((r.guid.drop 4).take 4 ++ zeros12))).map Char.toLower) 20 32 = zeros12 := by
    unfold pySlice
    rw [← List.map_drop, hN]
    decide
  constructor
  · rw [hc]
    dsimp only
    rw [hfact]
    decide
  · rw [hc]
    unfold Mapping.convert_guid
    dsimp only
    rw [hp, if_pos rfl]
    rw [if_pos (by rw [hfact]; decide)]

/-- Witness for C7 at the same concrete legacy Windows GUID. -/
theorem claim_C7_witness :
    ((⟨"4c056802000000000000504944564944".toList, "PS3 Controller".toList,
        "Windows".toList, [], 7⟩ : Mapping)).platform = "Windows".toList ∧
    pySlice ("4c056802000000000000504944564944".toList) 20 32 = pidvidSentinel ∧
    (pySlice (⟨"4c056802000000000000504944564944".toList, "PS3 Controller".toList,
        "Windows".toList, [], 7⟩ : Mapping).convert_guid.guid 20 32 ≠ pidvidSentinel ∧
      (⟨"4c056802000000000000504944564944".toList, "PS3 Controller".toList,
        "Windows".toList, [], 7⟩ : Mapping).convert_guid.convert_guid =
        (⟨"4c056802000000000000504944564944".toList, "PS3 Controller".toList,
          "Windows".toList, [], 7⟩ : Mapping).convert_guid) :=
  ⟨rfl, by decide,
   claim_C7_migration_idempotent
     ⟨"4c056802000000000000504944564944".toList, "PS3 Controller".toList,
      "Windows".toList, [], 7⟩ rfl (by decide)⟩

/-! ## Claim C5: value grammars -/

theorem takeWhile_all_append {p : Char → Bool} {a : LC} (x : Char) (t : LC)
    (ha : ∀ c ∈ a, p c = true) (hx : p x = false) :
    (a ++ x :: t).takeWhile p = a ∧ (a ++ x :: t).dropWhile p = x :: t := by
  induction a with
  | nil => simp [List.takeWhile, List.dropWhile, hx]
  | cons c rest ih =>
    have hc : p c = true := ha c (List.mem_cons_self c rest)
    have hr := ih (fun d hd => ha d (List.mem_cons_of_mem c hd))
    simp [List.takeWhile, List.dropWhile, hc, hr.1, hr.2]

theorem axisBody_iff (r : LC) :
    axisBody r = true ↔
      ∃ ds : LC, ds ≠ [] ∧ ds.all Char.isDigit = true ∧
        (r = ds ∨ r = ds ++ ['~']) := by
  constructor
  · intro h
    unfold axisBody at h
    simp only [Bool.and_eq_true, Bool.or_eq_true, decide_eq_true_eq] at h
    obtain ⟨htw, hdw⟩ := h
    refine ⟨r.takeWhile Char.isDigit, htw, ?_, ?_⟩
    · exact List.all_eq_true.2 (fun x hx => List.mem_takeWhile_imp hx)
    · rcases hdw with hdw | hdw
      · left
        conv_lhs => rw [← List.takeWhile_append_dropWhile Char.isDigit r]
        rw [hdw, List.append_nil]
      · right
        conv_lhs => rw [← List.takeWhile_append_dropWhile Char.isDigit r]
        rw [hdw]
  · rintro ⟨ds, hne, hall, hr | hr⟩ <;> rw [hr] <;> unfold axisBody
    · have hdw : ds.dropWhile Char.isDigit = [] :=
        List.dropWhile_eq_nil_iff.2 (fun x hx => List.all_eq_true.1 hall x hx)
      have htw : ds.takeWhile Char.isDigit = ds := by
        conv_rhs => rw [← List.takeWhile_append_dropWhile Char.isDigit ds]
        rw [hdw, List.append_nil]
      simp [htw, hdw, hne]
    · obtain ⟨h1, h2⟩ := takeWhile_all_append (a := ds) '~' []
        (fun c hc => List.all_eq_true.1 hall c hc) (by decide)
      simp [h1, h2, hne]

theorem axisSpec_iff (r : LC) :
    axisSpec r = true ↔
      ∃ ds : LC, ds ≠ [] ∧ ds.all Char.isDigit = true ∧
        (r = ds ∨ r = ds ++ ['~']) := by
  constructor
  · intro h
    unfold axisSpec at h
    simp only [Bool.or_eq_true, Bool.and_eq_true, decide_eq_true_eq,
      beq_iff_eq] at h
    rcases h with ⟨hne, hall⟩ | ⟨⟨hlast, hne⟩, hall⟩
    · exact ⟨r, hne, hall, Or.inl rfl⟩
    · refine ⟨r.dropLast, hne, hall, Or.inr ?_⟩
      have hrne : r ≠ [] := by
        intro he; subst he; simp at hlast
      conv_lhs => rw [← List.dropLast_append_getLast hrne]
      have := List.getLast?_eq_getLast r hrne
      rw [this] at hlast
      rw [Option.some_inj.1 hlast]
  · rintro ⟨ds, hne, hall, hr | hr⟩ <;> rw [hr] <;> unfold axisSpec
    · simp [hne, hall]
    · have h1 : (ds ++ ['~']).getLast? = some '~' := List.getLast?_concat ds
      have h2 : (ds ++ ['~']).dropLast = ds := List.dropLast_concat
      rw [h1, h2]
      simp [hne, hall]

theorem axisBody_eq_axisSpec (r : LC) : axisBody r = axisSpec r := by
  rw [Bool.eq_iff_iff, axisBody_iff, axisSpec_iff]

theorem buttonBody_eq_buttonSpec (r : LC) : buttonBody r = buttonSpec r := rfl

theorem pySplit_one {d : Char} {s x : LC} (h : pySplit d s = [x]) :
    s = x ∧ d ∉ s := by
  induction s generalizing x with
  | nil =>
    simp [pySplit] at h
    subst h
    exact ⟨rfl, by simp⟩
  | cons c rest ih =>
    simp only [pySplit] at h
    rcases hr : pySplit d rest with _ | ⟨f, fs⟩ <;> rw [hr] at h
    · exact absurd hr (pySplit_ne_nil d rest)
    · by_cases hc : c = d
      · simp [hc] at h
      · simp only [hc, if_false] at h
        injection h with h1 h2
        subst h2
        obtain ⟨hrest, hd⟩ := ih hr
        subst hrest
        refine ⟨h1, ?_⟩
        intro hm
        rcases List.mem_cons.1 hm with hm | hm
        · exact hc hm.symm
        · exact hd hm

theorem pySplit_two {d : Char} {s a b : LC} (h : pySplit d s = [a, b]) :
    s = a ++ d :: b ∧ d ∉ a ∧ d ∉ b := by
  induction s generalizing a with
  | nil => simp [pySplit] at h
  | cons c rest ih =>
    simp only [pySplit] at h
    rcases hr : pySplit d rest with _ | ⟨f, fs⟩ <;> rw [hr] at h
    · exact absurd hr (pySplit_ne_nil d rest)
    · by_cases hc : c = d
      · simp only [hc, if_true, List.cons.injEq] at h
        obtain ⟨ha, hf, hfs⟩ := h
        subst hfs
        have hone : pySplit d rest = [b] := by rw [hr, hf]
        obtain ⟨hrest, hd⟩ := pySplit_one hone
        subst hrest
        refine ⟨?_, ?_, hd⟩
        · rw [← ha, hc]
          rfl
        · rw [← ha]; simp
      · simp only [hc, if_false, List.cons.injEq] at h
        obtain ⟨ha, htail⟩ := h
        have hf : pySplit d rest = [f, b] := by rw [hr, htail]
        obtain ⟨hrest, hdf, hdb⟩ := ih hf
        refine ⟨?_, ?_, hdb⟩
        · rw [← ha, hrest]; rfl
        · rw [← ha]
          intro hm
          rcases List.mem_cons.1 hm with hm | hm
          · exact hc hm.symm
          · exact hdf hm

theorem hatMask_no_dot : ∀ m ∈ hatMasks, '.' ∉ m := by decide

theorem isDigit_all_not_mem {ds : LC} {c : Char} (hall : ds.all Char.isDigit = true)
    (hc : c.isDigit = false) : c ∉ ds := by
  intro hm
  rw [List.all_eq_true.1 hall c hm] at hc
  cases hc

theorem hatBody_iff (r : LC) :
    hatBody r = true ↔
      ∃ ds m : LC, ds ≠ [] ∧ ds.all Char.isDigit = true ∧ m ∈ hatMasks ∧
        r = ds ++ '.' :: m := by
  constructor
  · intro h
    unfold hatBody at h
    simp only [Bool.and_eq_true, decide_eq_true_eq] at h
    obtain ⟨htw, hdw⟩ := h
    rcases hd : r.dropWhile Char.isDigit with _ | ⟨c, m⟩ <;> rw [hd] at hdw
    · simp at hdw
    · simp only [Bool.and_eq_true, beq_iff_eq] at hdw
      obtain ⟨hc, hm⟩ := hdw
      subst hc
      refine ⟨r.takeWhile Char.isDigit, m, htw, ?_, ?_, ?_⟩
      · exact List.all_eq_true.2 (fun x hx => List.mem_takeWhile_imp hx)
      · exact List.elem_iff.1 hm
      · conv_lhs => rw [← List.takeWhile_append_dropWhile Char.isDigit r]
        rw [hd]
  · rintro ⟨ds, m, hne, hall, hm, hr⟩
    rw [hr]
    obtain ⟨h1, h2⟩ := takeWhile_all_append (a := ds) '.' m
      (fun c hc => List.all_eq_true.1 hall c hc) (by decide)
    unfold hatBody
    rw [h1, h2]
    simp [hne, List.elem_iff, hm]

theorem hatSpec_iff (r : LC) :
    hatSpec r = true ↔
      ∃ ds m : LC, ds ≠ [] ∧ ds.all Char.isDigit = true ∧ m ∈ hatMasks ∧
        r = ds ++ '.' :: m := by
  constructor
  · intro h
    unfold hatSpec at h
    rcases hs : pySplit '.' r with _ | ⟨a, _ | ⟨b, _ | ⟨x, t⟩⟩⟩ <;> rw [hs] at h
    · simp at h
    · simp at h
    · simp only [Bool.and_eq_true, decide_eq_true_eq] at h
      obtain ⟨⟨hne, hall⟩, hm⟩ := h
      obtain ⟨hr, _, _⟩ := pySplit_two hs
      exact ⟨a, b, hne, hall, List.elem_iff.1 hm, hr⟩
    · simp at h
  · rintro ⟨ds, m, hne, hall, hm, hr⟩
    rw [hr]
    unfold hatSpec
    rw [pySplit_token (isDigit_all_not_mem hall (by decide)) (hatMask_no_dot m hm)]
    simp [hne, hall, List.elem_iff, hm]

theorem hatBody_eq_hatSpec (r : LC) : hatBody r = hatSpec r := by
  rw [Bool.eq_iff_iff, hatBody_iff, hatSpec_iff]

theorem axisOk_eq_dollarSpec (r : LC) : axisOk r = dollarSpec axisSpec r := by
  unfold axisOk dollarSpec
  rw [axisBody_eq_axisSpec, axisBody_eq_axisSpec]

theorem buttonOk_eq_dollarSpec (r : LC) : buttonOk r = dollarSpec buttonSpec r :=
  rfl

theorem hatOk_eq_dollarSpec (r : LC) : hatOk r = dollarSpec hatSpec r := by
  unfold hatOk dollarSpec
  rw [hatBody_eq_hatSpec, hatBody_eq_hatSpec]

theorem valueOutcome_eq_specValueOutcome (v : LC) :
    valueOutcome v = specValueOutcome v := by
  unfold valueOutcome specValueOutcome kindSpecTable tryKind
  simp only [List.find?]
  cases h1 : ("+a".toList).isPrefixOf v <;>
    cases h2 : ("-a".toList).isPrefixOf v <;>
      cases h3 : ("a".toList).isPrefixOf v <;>
        cases h4 : ("b".toList).isPrefixOf v <;>
          cases h5 : ("h".toList).isPrefixOf v <;>
            simp [axisOk_eq_dollarSpec, hatOk_eq_dollarSpec,
              buttonOk_eq_dollarSpec]

/-- C5 counterexample: `a:b0b` is ACCEPTED by the source (and the raw value
`b0b` is stored), because `set_keys` removes every occurrence of the matched
prefix (`str.replace`), not just the leading one: `"b0b".replace("b","")`
is `"0"`, which matches `^[0-9]+$`, although the prefix-stripped remainder
`"0b"` does not. -/
theorem claim_C5_counterexample :
    Mapping.parse ("xinput,Pad,platform:Linux,a:b0b,".toList) 1 false =
      .ok ⟨"xinput".toList, "Pad".toList, "Linux".toList,
           [("a".toList, "b0b".toList)], 1⟩ ∧
    valueOutcome ("b0b".toList) = .accepted ∧
    pyReplace ("b0b".toList) ("b".toList) = "0".toList ∧
    ("b0b".toList).drop 1 = "0b".toList ∧
    buttonOk ("0b".toList) = false := by
  refine ⟨by decide, by decide, by decide, by decide, by decide⟩

/-- C5 (amended): the first matching prefix wins and the value is accepted
iff the remainder — obtained by removing EVERY occurrence of that prefix
string, not by stripping the leading prefix alone — matches the kind's
grammar under Python's `$` semantics, which also matches just before a
single trailing newline (`specValueOutcome`, written from the claim's
wording plus that allowance): so `b0` followed by one `\n` is accepted
although its bare remainder `0\n` fails the integer grammar; the hat
bitmask set is exactly {0,1,2,3,4,6,8,9,12}, and `h5.5` / `h0.15` are
rejected with Invalid value. -/
theorem claim_C5_value_grammar_amended :
    (∀ v : LC, valueOutcome v = specValueOutcome v) ∧
    (∀ m ∈ hatMasks, valueOutcome ('h' :: '0' :: '.' :: m) = .accepted) ∧
    valueOutcome ("h5.5".toList) = .invalid ("h".toList) ("5.5".toList) ∧
    valueOutcome ("h0.15".toList) = .invalid ("h".toList) ("0.15".toList) ∧
    valueOutcome ("b0".toList ++ ['\n']) = .accepted ∧
    buttonSpec ("0".toList ++ ['\n']) = false := by
  refine ⟨valueOutcome_eq_specValueOutcome, ?_, by decide, by decide,
    by decide, by decide⟩
  intro m hm
  fin_cases hm <;> decide

/-- Witness for C5 (amended) at the two-digit hat mask `12`. -/
theorem claim_C5_witness :
    ("12".toList ∈ hatMasks) ∧
    valueOutcome ('h' :: '0' :: '.' :: "12".toList) = .accepted :=
  ⟨by decide, claim_C5_value_grammar_amended.2.1 ("12".toList) (by decide)⟩

/-! ## Claim C8: duplicate keys -/

theorem kmGet_kmSet_ne {ks : List (LC × LC)} {k k' : LC} (h : k' ≠ k) (v : LC) :
    kmGet (kmSet ks k v) k' = kmGet ks k' := by
  induction ks with
  | nil => rfl
  | cons kv rest ih =>
    by_cases hk : kv.1 == k
    · have h1 : kv.1 = k := beq_iff_eq.1 hk
      have h2 : (kv.1 == k') = false := by
        rw [h1]; exact beq_eq_false_iff_ne.2 (Ne.symm h)
      simp [kmSet, hk, kmGet, h2]
    · rw [Bool.not_eq_true] at hk
      simp only [kmSet, hk, Bool.false_eq_true, if_false]
      by_cases hk' : kv.1 == k'
      · simp [kmGet, hk']
      · rw [Bool.not_eq_true] at hk'
        simp [kmGet, hk', ih]

theorem set_keys_loop_dups :
    ∀ (ts : List LC) (ks : List (LC × LC)) (thr : Bool) (msg : LC)
      (ks' : List (LC × LC)) (thr' : Bool) (msg' : LC),
      set_keys_loop ks thr msg ts = .ok (ks', thr', msg') →
      msg' = msg ++ renderDups (dupTokens ks ts) ∧
      thr' = (thr || !(dupTokens ks ts).isEmpty) ∧
      (∀ k, kmGet ks k ≠ [] → kmGet ks' k = kmGet ks k) := by
  intro ts
  induction ts with
  | nil =>
    intro ks thr msg ks' thr' msg' h
    simp only [set_keys_loop, Res.ok.injEq, Prod.mk.injEq] at h
    obtain ⟨h1, h2, h3⟩ := h
    subst h1 h2 h3
    refine ⟨by simp [dupTokens, renderDups], by simp [dupTokens], fun k _ => rfl⟩
  | cons kv rest ih =>
    intro ks thr msg ks' thr' msg' h
    simp only [set_keys_loop] at h
    rcases hsp : pySplit ':' kv with _ | ⟨k, _ | ⟨v, _ | ⟨x, t⟩⟩⟩
    · simp only [hsp] at h; simp at h
    · simp only [hsp] at h; simp at h
    · simp only [hsp] at h
      simp only [dupTokens, hsp]
      by_cases hhas : kmHas ks k = false
      · rw [if_pos hhas] at h; simp at h
      · rw [if_neg hhas] at h
        by_cases hget : kmGet ks k ≠ []
        · rw [if_pos hget] at h
          rw [if_pos hget]
          obtain ⟨e1, e2, e3⟩ := ih _ _ _ _ _ _ h
          refine ⟨?_, ?_, e3⟩
          · rw [e1]
            simp [renderDups, List.append_assoc]
          · rw [e2]
            simp
        · rw [if_neg hget] at h
          rw [if_neg hget]
          have hget' : kmGet ks k = [] := not_ne_iff.1 hget
          rcases hv : valueOutcome v with _ | _ | ⟨b, bad⟩ <;>
            (simp only [hv] at h; dsimp only)
          · obtain ⟨e1, e2, e3⟩ := ih _ _ _ _ _ _ h
            refine ⟨e1, e2, ?_⟩
            intro k' hk'
            have hne : k' ≠ k := fun e => hk' (e ▸ hget')
            rw [e3 k' (by rw [kmGet_kmSet_ne hne]; exact hk'), kmGet_kmSet_ne hne]
          · exact ih _ _ _ _ _ _ h
          · simp at h
    · simp only [hsp] at h; simp at h

theorem set_keys_dup_error (ts : List LC) (ks1 : List (LC × LC)) (thr1 : Bool)
    (msg1 : LC) (h : set_keys_loop keysInit false [] ts = .ok (ks1, thr1, msg1))
    (hd : dupTokens keysInit ts ≠ []) :
    set_keys ts = .err (.valueErr (.duplicateKeys
      (renderDups (dupTokens keysInit ts)))) := by
  obtain ⟨e1, e2, _⟩ := set_keys_loop_dups ts keysInit false [] ks1 thr1 msg1 h
  have ht : thr1 = true := by
    rw [e2]
    simp [List.isEmpty_iff, hd]
  unfold set_keys
  simp only [h]
  rw [if_pos ht, e1]
  simp

/-- C8: a token whose (recognized) key already holds a non-empty value does
not overwrite it; the loop continues and, once all tokens are processed,
the record fails with Duplicate keys whose message lists every duplicate
observed (each with its earlier value), e.g. a line with `a:b0,a:b1` fails
naming both occurrences. -/
theorem claim_C8_duplicate_keys :
    (∀ (ts : List LC) (ks : List (LC × LC)) (thr : Bool) (msg : LC)
      (ks' : List (LC × LC)) (thr' : Bool) (msg' : LC),
      set_keys_loop ks thr msg ts = .ok (ks', thr', msg') →
      msg' = msg ++ renderDups (dupTokens ks ts) ∧
      thr' = (thr || !(dupTokens ks ts).isEmpty) ∧
      (∀ k, kmGet ks k ≠ [] → kmGet ks' k = kmGet ks k)) ∧
    (∀ (ts : List LC) (ks1 : List (LC × LC)) (thr1 : Bool) (msg1 : LC),
      set_keys_loop keysInit false [] ts = .ok (ks1, thr1, msg1) →
      dupTokens keysInit ts ≠ [] →
      set_keys ts = .err (.valueErr (.duplicateKeys
        (renderDups (dupTokens keysInit ts))))) ∧
    Mapping.parse ("xinput,Pad,platform:Linux,a:b0,a:b1,".toList) 1 false =
      .err (.valueErr (.duplicateKeys ("a:b1 (was a:b0), ".toList))) ∧
    Mapping.parse ("xinput,Pad,platform:Linux,a:b0,a:b1,b:b2,b:b3,".toList) 1 false =
      .err (.valueErr (.duplicateKeys
        ("a:b1 (was a:b0), b:b3 (was b:b2), ".toList))) :=
  ⟨set_keys_loop_dups, set_keys_dup_error, by decide, by decide⟩

/-- Witness for C8 at the concrete token list `a:b0,a:b1`. -/
theorem claim_C8_witness :
    set_keys_loop keysInit false [] ["a:b0".toList, "a:b1".toList] =
      .ok (kmSet keysInit ("a".toList) ("b0".toList), true,
        renderDup ("a:b1".toList) ("a".toList) ("b0".toList)) ∧
    dupTokens keysInit ["a:b0".toList, "a:b1".toList] ≠ [] ∧
    set_keys ["a:b0".toList, "a:b1".toList] =
      .err (.valueErr (.duplicateKeys
        (renderDups (dupTokens keysInit ["a:b0".toList, "a:b1".toList])))) :=
  ⟨by decide, by decide,
   claim_C8_duplicate_keys.2.1 ["a:b0".toList, "a:b1".toList]
     (kmSet keysInit ("a".toList) ("b0".toList)) true
     (renderDup ("a:b1".toList) ("a".toList) ("b0".toList))
     (by decide) (by decide)⟩

/-! ## Claim C2: serialize/parse round trip -/

/-- C2 counterexample: a name with a comma enters through csv quoting
(`"a,b"`), but `serialize` never quotes, so re-parsing its output fails
(the stray field `b` has no colon and raises the unpack `ValueError`). -/
theorem claim_C2_counterexample :
    Mapping.parse ("xinput,\"a,b\",platform:Windows,".toList) 1 false =
      .ok ⟨"xinput".toList, "a,b".toList, "Windows".toList, [], 1⟩ ∧
    Mapping.parse
      ((⟨"xinput".toList, "a,b".toList, "Windows".toList, [], 1⟩ : Mapping).serialize)
      1 false =
      .err (.valueErr (.unpackMismatch ("b".toList))) :=
  ⟨by decide, by decide⟩

theorem collapse_head? (s : LC) : (collapseSpaces s).head? = s.head? := by
  induction s with
  | nil => rfl
  | cons c rest ih =>
    cases rest with
    | nil => rfl
    | cons d rest' =>
      by_cases h : c = ' ' ∧ d = ' '
      · rw [collapseSpaces, if_pos h, ih]
        simp [h.1, h.2]
      · rw [collapseSpaces, if_neg h]
        rfl

theorem collapse_chain (s : LC) :
    (collapseSpaces s).Chain' (fun a b => ¬(a = ' ' ∧ b = ' ')) := by
  induction s with
  | nil => simp [collapseSpaces]
  | cons c rest ih =>
    cases rest with
    | nil => simp [collapseSpaces]
    | cons d rest' =>
      by_cases h : c = ' ' ∧ d = ' '
      · rw [collapseSpaces, if_pos h]
        exact ih
      · rw [collapseSpaces, if_neg h]
        rw [List.chain'_cons']
        refine ⟨?_, ih⟩
        intro b hb
        rw [collapse_head?] at hb
        simp at hb
        intro hcb
        exact h ⟨hcb.1, hb.trans hcb.2⟩

theorem collapse_of_chain : ∀ (s : LC),
    s.Chain' (fun a b => ¬(a = ' ' ∧ b = ' ')) → collapseSpaces s = s := by
  intro s
  induction s with
  | nil => intro _; rfl
  | cons c rest ih =>
    intro h
    cases rest with
    | nil => rfl
    | cons d rest' =>
      rw [List.chain'_cons] at h
      rw [collapseSpaces, if_neg h.1, ih h.2]

theorem collapse_idem (s : LC) :
    collapseSpaces (collapseSpaces s) = collapseSpaces s :=
  collapse_of_chain _ (collapse_chain s)

theorem collapse_ne_nil {s : LC} (h : s ≠ []) : collapseSpaces s ≠ [] := by
  intro he
  have := collapse_head? s
  rw [he] at this
  cases s with
  | nil => exact h rfl
  | cons c rest => simp at this

theorem replA_drop (old : LC) : ∀ (n : Nat) (s : LC),
    replA old n s = replA old 0 (s.drop n) := by
  intro n
  induction n with
  | zero => intro s; rw [List.drop_zero]
  | succ m ih =>
    intro s
    cases s with
    | nil => rfl
    | cons c rest =>
      rw [List.drop_succ_cons]
      show replA old m rest = _
      exact ih rest

theorem replA_chars_aux (old : LC) : ∀ (n : Nat) (s : LC), s.length ≤ n →
    ∀ c ∈ s, c ∈ old ∨ c ∈ replA old 0 s := by
  intro n
  induction n with
  | zero =>
    intro s hs c hc
    rw [List.length_eq_zero.1 (Nat.le_zero.1 hs)] at hc
    cases hc
  | succ m ih =>
    intro s hs c hc
    cases s with
    | nil => cases hc
    | cons a rest =>
      by_cases hp : old ≠ [] ∧ old.isPrefixOf (a :: rest) = true
      · obtain ⟨o, old', hold⟩ := List.exists_cons_of_ne_nil hp.1
        have hpre : old <+: a :: rest := List.isPrefixOf_iff_prefix.1 hp.2
        obtain ⟨t, ht⟩ := hpre
        have hrest : old' ++ t = rest := by
          rw [hold] at ht
          exact (List.cons.injEq _ _ _ _ ▸ ht).2
        have hdrop : rest.drop (old.length - 1) = t := by
          rw [← hrest, hold]
          simp [List.drop_left]
        have hmem : c ∈ old ∨ c ∈ t := by
          have : c ∈ old ++ t := by rw [ht]; exact hc
          exact List.mem_append.1 this
        rcases hmem with hm | hm
        · exact Or.inl hm
        · have hlen : t.length ≤ m := by
            have h1 : (a :: rest).length = old.length + t.length := by
              rw [← ht, List.length_append]
            have h2 : 1 ≤ old.length := by
              rw [hold]; simp
            simp only [List.length_cons] at h1 hs
            omega
          rcases ih t hlen c hm with h | h
          · exact Or.inl h
          · right
            show c ∈ replA old 0 (a :: rest)
            rw [show replA old 0 (a :: rest) = replA old (old.length - 1) rest from by
              rw [replA, if_pos hp]]
            rw [replA_drop, hdrop]
            exact h
      · rcases List.mem_cons.1 hc with rfl | hm
        · right
          rw [replA, if_neg hp]
          exact List.mem_cons_self _ _
        · have hlen : rest.length ≤ m := by
            simp only [List.length_cons] at hs; omega
          rcases ih rest hlen c hm with h | h
          · exact Or.inl h
          · right
            rw [replA, if_neg hp]
            exact List.mem_cons_of_mem _ h

theorem replA_chars {old s : LC} {c : Char} (hc : c ∈ s) :
    c ∈ old ∨ c ∈ replA old 0 s :=
  replA_chars_aux old s.length s le_rfl c hc

theorem hatMask_digits : ∀ m ∈ hatMasks, ∀ c ∈ m, c.isDigit = true := by decide

theorem axisBody_chars {r : LC} (h : axisBody r = true) :
    ∀ c ∈ r, c.isDigit = true ∨ c = '~' := by
  obtain ⟨ds, _, hall, hr | hr⟩ := (axisBody_iff r).1 h <;> subst hr <;> intro c hc
  · exact Or.inl (List.all_eq_true.1 hall c hc)
  · rcases List.mem_append.1 hc with hm | hm
    · exact Or.inl (List.all_eq_true.1 hall c hm)
    · simp at hm
      exact Or.inr hm

theorem buttonBody_chars {r : LC} (h : buttonBody r = true) :
    ∀ c ∈ r, c.isDigit = true := by
  unfold buttonBody at h
  simp only [Bool.and_eq_true] at h
  exact fun c hc => List.all_eq_true.1 h.2 c hc

theorem hatBody_chars {r : LC} (h : hatBody r = true) :
    ∀ c ∈ r, c.isDigit = true ∨ c = '.' := by
  obtain ⟨ds, m, _, hall, hm, hr⟩ := (hatBody_iff r).1 h
  subst hr
  intro c hc
  rcases List.mem_append.1 hc with hc | hc
  · exact Or.inl (List.all_eq_true.1 hall c hc)
  · rcases List.mem_cons.1 hc with rfl | hc
    · exact Or.inr rfl
    · exact Or.inl (hatMask_digits m hm c hc)

theorem axisBody_valueChar {r : LC} (h : axisBody r = true) :
    ∀ c ∈ r, valueChar c := by
  intro c hc
  rcases axisBody_chars h c hc with hd | rfl
  · exact Or.inl hd
  · unfold valueChar; tauto

theorem buttonBody_valueChar {r : LC} (h : buttonBody r = true) :
    ∀ c ∈ r, valueChar c :=
  fun c hc => Or.inl (buttonBody_chars h c hc)

theorem hatBody_valueChar {r : LC} (h : hatBody r = true) :
    ∀ c ∈ r, valueChar c := by
  intro c hc
  rcases hatBody_chars h c hc with hd | rfl
  · exact Or.inl hd
  · unfold valueChar; tauto

theorem getLast?_mem_self {l : LC} {c : Char} (h : l.getLast? = some c) :
    c ∈ l := by
  have hx : c ∈ l.getLast? := by rw [Option.mem_def]; exact h
  obtain ⟨hne, he⟩ := List.mem_getLast?_eq_getLast hx
  rw [he]
  exact List.getLast_mem hne

theorem dollar_no_nl {body : LC → Bool} {r : LC} (h : '\n' ∉ r) :
    (body r || (r.getLast? == some '\n' && body r.dropLast)) = body r := by
  have hg : (r.getLast? == some '\n') = false := by
    rw [beq_eq_false_iff_ne]
    intro he
    exact h (getLast?_mem_self he)
  rw [hg]
  simp

theorem axisOk_no_nl {r : LC} (h : '\n' ∉ r) : axisOk r = axisBody r :=
  dollar_no_nl h

theorem buttonOk_no_nl {r : LC} (h : '\n' ∉ r) : buttonOk r = buttonBody r :=
  dollar_no_nl h

theorem hatOk_no_nl {r : LC} (h : '\n' ∉ r) : hatOk r = hatBody r :=
  dollar_no_nl h

theorem replA_sub (old : LC) :
    ∀ (s : LC) (n : Nat) (c : Char), c ∈ replA old n s → c ∈ s := by
  intro s
  induction s with
  | nil => intro n c h; cases n <;> simp [replA] at h
  | cons a rest ih =>
    intro n c h
    cases n with
    | succ m => exact List.mem_cons_of_mem a (ih m c h)
    | zero =>
      rw [replA] at h
      split_ifs at h with hp
      · exact List.mem_cons_of_mem a (ih _ c h)
      · rcases List.mem_cons.1 h with rfl | h1
        · exact List.mem_cons_self c rest
        · exact List.mem_cons_of_mem a (ih 0 c h1)

theorem tryKind_chars {butt v : LC} {ok : LC → Bool}
    (h : tryKind butt ok v = .accepted) (hnl : '\n' ∉ v)
    (hbutt : ∀ c ∈ butt, valueChar c)
    (hok : ∀ r : LC, '\n' ∉ r → ok r = true → ∀ c ∈ r, valueChar c) :
    ∀ c ∈ v, valueChar c := by
  unfold tryKind at h
  dsimp only at h
  split_ifs at h with hk
  have hremnl : '\n' ∉ pyReplace v butt :=
    fun hm => hnl (replA_sub butt v 0 '\n' hm)
  intro c hc
  rcases replA_chars hc with hm | hm
  · exact hbutt c hm
  · exact hok _ hremnl hk c hm

theorem kindPrefix_valueChar (c : Char)
    (h : c = '+' ∨ c = '-' ∨ c = 'a' ∨ c = 'b' ∨ c = 'h') : valueChar c := by
  unfold valueChar; tauto

theorem accepted_chars {v : LC} (h : valueOutcome v = .accepted)
    (hnl : '\n' ∉ v) : ∀ c ∈ v, valueChar c := by
  unfold valueOutcome at h
  split_ifs at h with h1 h2 h3 h4 h5
  · exact tryKind_chars h hnl
      (by intro c hc; apply kindPrefix_valueChar; simp at hc; tauto)
      (fun r hrnl hr => by
        rw [axisOk_no_nl hrnl] at hr; exact axisBody_valueChar hr)
  · exact tryKind_chars h hnl
      (by intro c hc; apply kindPrefix_valueChar; simp at hc; tauto)
      (fun r hrnl hr => by
        rw [axisOk_no_nl hrnl] at hr; exact axisBody_valueChar hr)
  · exact tryKind_chars h hnl
      (by intro c hc; apply kindPrefix_valueChar; simp at hc; tauto)
      (fun r hrnl hr => by
        rw [axisOk_no_nl hrnl] at hr; exact axisBody_valueChar hr)
  · exact tryKind_chars h hnl
      (by intro c hc; apply kindPrefix_valueChar; simp at hc; tauto)
      (fun r hrnl hr => by
        rw [buttonOk_no_nl hrnl] at hr; exact buttonBody_valueChar hr)
  · exact tryKind_chars h hnl
      (by intro c hc; apply kindPrefix_valueChar; simp at hc; tauto)
      (fun r hrnl hr => by
        rw [hatOk_no_nl hrnl] at hr; exact hatBody_valueChar hr)

theorem valueChar_not_bad {c : Char} (h : valueChar c) :
    c ≠ ',' ∧ c ≠ ':' ∧ c ≠ 'm' ∧ c ≠ '"' ∧ c ≠ ' ' ∧
      c ≠ '\n' ∧ c ≠ '\r' ∧ c ≠ '\x00' := by
  rcases h with hd | rfl | rfl | rfl | rfl | rfl | rfl | rfl
  · refine ⟨?_, ?_, ?_, ?_, ?_, ?_, ?_, ?_⟩ <;>
      (intro e; subst e; exact absurd hd (by decide))
  all_goals exact ⟨by decide, by decide, by decide, by decide, by decide,
    by decide, by decide, by decide⟩

theorem accepted_ne_nil {v : LC} (h : valueOutcome v = .accepted) : v ≠ [] := by
  intro he
  subst he
  exact absurd h (by decide)

theorem kmSet_keys (ks : List (LC × LC)) (k v : LC) :
    (kmSet ks k v).map Prod.fst = ks.map Prod.fst := by
  induction ks with
  | nil => rfl
  | cons kv rest ih =>
    by_cases hk : kv.1 == k
    · simp [kmSet, hk]
    · rw [Bool.not_eq_true] at hk
      simp [kmSet, hk, ih]

theorem mem_kmSet {ks : List (LC × LC)} {k v : LC} {kv' : LC × LC}
    (h : kv' ∈ kmSet ks k v) : kv' ∈ ks ∨ kv'.2 = v := by
  induction ks with
  | nil => cases h
  | cons kv rest ih =>
    by_cases hk : kv.1 == k
    · simp only [kmSet, hk, if_true] at h
      rcases List.mem_cons.1 h with rfl | hm
      · exact Or.inr rfl
      · exact Or.inl (List.mem_cons_of_mem _ hm)
    · rw [Bool.not_eq_true] at hk
      simp only [kmSet, hk, Bool.false_eq_true, if_false] at h
      rcases List.mem_cons.1 h with rfl | hm
      · exact Or.inl (List.mem_cons_self _ _)
      · rcases ih hm with hm' | hm'
        · exact Or.inl (List.mem_cons_of_mem _ hm')
        · exact Or.inr hm'

theorem kmGet_of_not_has {ks : List (LC × LC)} {k : LC}
    (h : kmHas ks k = false) : kmGet ks k = [] := by
  induction ks with
  | nil => rfl
  | cons kv rest ih =>
    simp only [kmHas, Bool.or_eq_false_iff] at h
    simp [kmGet, h.1, ih h.2]

theorem kmGet_of_mem_nodup {ks : List (LC × LC)} {k v : LC}
    (hnd : (ks.map Prod.fst).Nodup) (h : (k, v) ∈ ks) : kmGet ks k = v := by
  induction ks with
  | nil => cases h
  | cons kv rest ih =>
    rw [List.map_cons, List.nodup_cons] at hnd
    rcases List.mem_cons.1 h with rfl | hm
    · simp [kmGet]
    · have hne : kv.1 ≠ k := by
        intro e
        exact hnd.1 (e ▸ List.mem_map_of_mem Prod.fst hm)
      simp only [kmGet, beq_eq_false_iff_ne.2 hne, Bool.false_eq_true, if_false]
      exact ih hnd.2 hm

theorem kmGet_mem {ks : List (LC × LC)} {k : LC} (h : kmHas ks k = true) :
    (k, kmGet ks k) ∈ ks := by
  induction ks with
  | nil => cases h
  | cons kv rest ih =>
    by_cases hk : kv.1 == k
    · have : kv.1 = k := beq_iff_eq.1 hk
      subst this
      simp [kmGet]
    · rw [Bool.not_eq_true] at hk
      simp only [kmHas, hk, Bool.false_or] at h
      simp only [kmGet, hk, Bool.false_eq_true, if_false]
      exact List.mem_cons_of_mem _ (ih h)

theorem kmHas_perm {l l' : List (LC × LC)} (hp : l.Perm l') (k : LC) :
    kmHas l k = kmHas l' k := by
  rw [kmHas_eq_contains, kmHas_eq_contains]
  have hme := (hp.map Prod.fst).mem_iff (a := k)
  by_cases hm : k ∈ l.map Prod.fst
  · have h1 : (l.map Prod.fst).contains k = true := List.elem_iff.2 hm
    have h2 : (l'.map Prod.fst).contains k = true := List.elem_iff.2 (hme.1 hm)
    rw [h1, h2]
  · have hm' : k ∉ l'.map Prod.fst := fun hx => hm (hme.2 hx)
    have h1 : (l.map Prod.fst).contains k = false :=
      Bool.eq_false_iff.2 (fun hx => hm (List.elem_iff.1 hx))
    have h2 : (l'.map Prod.fst).contains k = false :=
      Bool.eq_false_iff.2 (fun hx => hm' (List.elem_iff.1 hx))
    rw [h1, h2]

theorem kmGet_perm {l l' : List (LC × LC)} (hnd : (l.map Prod.fst).Nodup)
    (hp : l.Perm l') (k : LC) : kmGet l k = kmGet l' k := by
  by_cases hh : kmHas l k = true
  · have h1 : (k, kmGet l k) ∈ l := kmGet_mem hh
    have h2 : (k, kmGet l k) ∈ l' := hp.mem_iff.1 h1
    have hnd' : (l'.map Prod.fst).Nodup := (hp.map Prod.fst).nodup hnd
    exact (kmGet_of_mem_nodup hnd' h2).symm
  · rw [Bool.not_eq_true] at hh
    rw [kmGet_of_not_has hh, kmGet_of_not_has (by rw [← kmHas_perm hp]; exact hh)]

theorem set_keys_loop_inv :
    ∀ (ts : List LC) (ks : List (LC × LC)) (thr : Bool) (msg : LC)
      (ks' : List (LC × LC)) (thr' : Bool) (msg' : LC),
      set_keys_loop ks thr msg ts = .ok (ks', thr', msg') →
      ks'.map Prod.fst = ks.map Prod.fst ∧
      (∀ kv ∈ ks', kv ∈ ks ∨ valueOutcome kv.2 = .accepted) := by
  intro ts
  induction ts with
  | nil =>
    intro ks thr msg ks' thr' msg' h
    simp only [set_keys_loop, Res.ok.injEq, Prod.mk.injEq] at h
    obtain ⟨h1, _, _⟩ := h
    subst h1
    exact ⟨rfl, fun kv hm => Or.inl hm⟩
  | cons kv rest ih =>
    intro ks thr msg ks' thr' msg' h
    simp only [set_keys_loop] at h
    rcases hsp : pySplit ':' kv with _ | ⟨k, _ | ⟨v, _ | ⟨x, t⟩⟩⟩
    · simp only [hsp] at h; simp at h
    · simp only [hsp] at h; simp at h
    · simp only [hsp] at h
      by_cases hhas : kmHas ks k = false
      · rw [if_pos hhas] at h; simp at h
      · rw [if_neg hhas] at h
        by_cases hget : kmGet ks k ≠ []
        · rw [if_pos hget] at h
          exact ih _ _ _ _ _ _ h
        · rw [if_neg hget] at h
          rcases hv : valueOutcome v with _ | _ | ⟨b, bad⟩ <;>
            simp only [hv] at h
          · obtain ⟨e1, e2⟩ := ih _ _ _ _ _ _ h
            refine ⟨e1.trans (kmSet_keys ks k v), ?_⟩
            intro kv' hm
            rcases e2 kv' hm with hm' | hm'
            · rcases mem_kmSet hm' with hm'' | hm''
              · exact Or.inl hm''
              · exact Or.inr (hm'' ▸ hv)
            · exact Or.inr hm'
          · exact ih _ _ _ _ _ _ h
          · simp at h
    · simp only [hsp] at h; simp at h

theorem kmHas_kmSet (ks : List (LC × LC)) (k v q : LC) :
    kmHas (kmSet ks k v) q = kmHas ks q := by
  rw [kmHas_eq_contains, kmHas_eq_contains, kmSet_keys]

theorem set_keys_loop_assign :
    ∀ (ps : List (LC × LC)) (ks : List (LC × LC)),
      (ps.map Prod.fst).Nodup →
      (∀ p ∈ ps, kmHas ks p.1 = true ∧ kmGet ks p.1 = [] ∧
        valueOutcome p.2 = .accepted ∧ (':' ∉ p.1) ∧ (':' ∉ p.2)) →
      set_keys_loop ks false [] (ps.map (fun p => p.1 ++ ':' :: p.2)) =
        .ok (kmSetAll ks ps, false, []) := by
  intro ps
  induction ps with
  | nil => intro ks _ _; rfl
  | cons p ps' ih =>
    intro ks hnd hps
    obtain ⟨hhas, hget, hacc, hk, hv⟩ := hps p (List.mem_cons_self p ps')
    rw [List.map_cons]
    simp only [set_keys_loop, pySplit_token hk hv]
    rw [if_neg (by rw [hhas]; simp), if_neg (by rw [hget]; simp), hacc]
    rw [List.map_cons, List.nodup_cons] at hnd
    have hstep := ih (kmSet ks p.1 p.2) hnd.2 ?_
    · rw [hstep]
      rfl
    · intro q hq
      obtain ⟨h1, h2, h3, h4, h5⟩ := hps q (List.mem_cons_of_mem p hq)
      have hne : q.1 ≠ p.1 := by
        intro e
        exact hnd.1 (e ▸ List.mem_map_of_mem Prod.fst hq)
      exact ⟨by rw [kmHas_kmSet]; exact h1,
        by rw [kmGet_kmSet_ne hne]; exact h2, h3, h4, h5⟩

theorem kmSet_eq_map {ks : List (LC × LC)} (hnd : (ks.map Prod.fst).Nodup)
    (k v : LC) (hk : kmHas ks k = true) :
    kmSet ks k v = ks.map (fun kv => if kv.1 = k then (kv.1, v) else kv) := by
  induction ks with
  | nil => cases hk
  | cons kv rest ih =>
    rw [List.map_cons, List.nodup_cons] at hnd
    by_cases hh : kv.1 == k
    · have he : kv.1 = k := beq_iff_eq.1 hh
      simp only [kmSet, hh, if_true, List.map_cons, he, if_pos rfl]
      have : rest.map (fun kv => if kv.1 = k then (kv.1, v) else kv) = rest := by
        have : ∀ q ∈ rest, (fun kv => if kv.1 = k then (kv.1, v) else kv) q = id q := by
          intro q hq
          have : q.1 ≠ k := by
            intro e
            exact hnd.1 (he ▸ e ▸ List.mem_map_of_mem Prod.fst hq)
          simp [this]
        rw [List.map_congr_left this, List.map_id]
      rw [this]
      simp
    · rw [Bool.not_eq_true] at hh
      have hne : kv.1 ≠ k := beq_eq_false_iff_ne.1 hh
      simp only [kmHas, hh, Bool.false_or] at hk
      simp only [kmSet, hh, Bool.false_eq_true, if_false, List.map_cons, hne,
        if_false, ih hnd.2 hk]

theorem kmSetAll_eq :
    ∀ (ps ks : List (LC × LC)), (ps.map Prod.fst).Nodup →
      (ks.map Prod.fst).Nodup →
      (∀ p ∈ ps, kmHas ks p.1 = true) →
      kmSetAll ks ps =
        ks.map (fun kv =>
          if kmHas ps kv.1 = true then (kv.1, kmGet ps kv.1) else kv) := by
  intro ps
  induction ps with
  | nil =>
    intro ks _ _ _
    unfold kmSetAll
    simp [kmHas]
  | cons p ps' ih =>
    intro ks hnd hknd hhas
    rw [List.map_cons, List.nodup_cons] at hnd
    have hstep : kmSetAll ks (p :: ps') = kmSetAll (kmSet ks p.1 p.2) ps' := rfl
    rw [hstep, ih (kmSet ks p.1 p.2)
      hnd.2 (by rw [kmSet_keys]; exact hknd)
      (fun q hq => by rw [kmHas_kmSet]; exact hhas q (List.mem_cons_of_mem p hq))]
    rw [kmSet_eq_map hknd p.1 p.2 (hhas p (List.mem_cons_self p ps')), List.map_map]
    apply List.map_congr_left
    intro kv _
    by_cases he : kv.1 = p.1
    · have hbeq : (p.1 == kv.1) = true := beq_iff_eq.2 he.symm
      have hp1 : kmHas ps' p.1 = false := by
        rw [kmHas_eq_contains]
        exact Bool.eq_false_iff.2 (fun hx => hnd.1 (List.elem_iff.1 hx))
      simp [Function.comp, he, hp1, kmHas, kmGet, hbeq]
    · have hbeq : (p.1 == kv.1) = false := beq_eq_false_iff_ne.2 (Ne.symm he)
      simp [Function.comp, he, kmHas, kmGet, hbeq]

theorem insertSorted_perm (a : LC × LC) :
    ∀ (l : List (LC × LC)), (insertSorted a l).Perm (a :: l) := by
  intro l
  induction l with
  | nil => exact List.Perm.refl _
  | cons b t ih =>
    by_cases h : pairLeB a b
    · rw [insertSorted, if_pos h]
    · rw [insertSorted, if_neg h]
      exact (ih.cons b).trans (List.Perm.swap a b t)

theorem pySorted_perm (l : List (LC × LC)) : (pySorted l).Perm l := by
  induction l with
  | nil => exact List.Perm.refl _
  | cons a t ih =>
    show (insertSorted a (pySorted t)).Perm (a :: t)
    exact (insertSorted_perm a (pySorted t)).trans (ih.cons a)

theorem kmGet_all_nil : ∀ (ks : List (LC × LC)), (∀ kv ∈ ks, kv.2 = []) →
    ∀ k, kmGet ks k = [] := by
  intro ks
  induction ks with
  | nil => intro _ k; rfl
  | cons kv rest ih =>
    intro h k
    by_cases hk : kv.1 == k
    · simp only [kmGet, hk, if_true]
      exact h kv (List.mem_cons_self kv rest)
    · rw [Bool.not_eq_true] at hk
      simp only [kmGet, hk, Bool.false_eq_true, if_false]
      exact ih (fun q hq => h q (List.mem_cons_of_mem kv hq)) k

theorem keys_nodup_inj : ∀ {ks : List (LC × LC)},
    (ks.map Prod.fst).Nodup → ∀ {a b : LC × LC}, a ∈ ks → b ∈ ks →
    a.1 = b.1 → a = b := by
  intro ks
  induction ks with
  | nil => intro _ a b ha; cases ha
  | cons kv rest ih =>
    intro hnd a b ha hb he
    rw [List.map_cons, List.nodup_cons] at hnd
    rcases List.mem_cons.1 ha with rfl | ha' <;>
      rcases List.mem_cons.1 hb with rfl | hb'
    · rfl
    · exact absurd (he ▸ List.mem_map_of_mem Prod.fst hb') hnd.1
    · exact absurd (he ▸ List.mem_map_of_mem Prod.fst ha') hnd.1
    · exact ih hnd.2 ha' hb' he

theorem set_guid_ok {g g' : LC} (h : set_guid g = .ok g') : g' = g := by
  unfold set_guid at h
  split_ifs at h <;> simp_all

theorem set_platform_ok_platform {guid : LC} {m : List LC} {am : Bool}
    {p : LC} {rest' : List LC} (h : set_platform guid m am = .ok (p, rest')) :
    platformsList.contains p = true := by
  unfold set_platform at h
  rcases hf : m.find? (fun t => containsSub t ("platform:".toList)) with _ | tok <;>
    simp only [hf] at h
  · split_ifs at h with h1 h2 h3
    · simp only [Res.ok.injEq, Prod.mk.injEq] at h
      rw [← h.1]
      decide
    · simp only [Res.ok.injEq, Prod.mk.injEq] at h
      rw [← h.1]
      decide
  · rcases hg : (pySplit ':' tok).get? 1 with _ | q <;> simp only [hg] at h
    · simp at h
    · split_ifs at h with hc
      · simp only [Res.ok.injEq, Prod.mk.injEq] at h
        exact h.1 ▸ hc

theorem csvRun_inField_run :
    ∀ (f : LC) (fs : List LC) (acc rest : LC),
      (∀ c ∈ f, c ≠ ',' ∧ c ≠ '\n' ∧ c ≠ '\r') →
      csvRun .inField fs acc (f ++ rest) = csvRun .inField fs (acc ++ f) rest := by
  intro f
  induction f with
  | nil => intro fs acc rest _; simp
  | cons c f' ih =>
    intro fs acc rest h
    obtain ⟨hcm, hnl, hcr⟩ := h c (List.mem_cons_self c f')
    rw [List.cons_append, csvRun]
    rw [if_neg (by tauto), if_neg hcm]
    rw [ih fs (acc ++ [c]) rest (fun d hd => h d (List.mem_cons_of_mem c hd))]
    simp

theorem csvRun_start_join :
    ∀ (fs : List LC), (∀ f ∈ fs, plainTok f) →
      ∀ (done : List LC) (x : LC),
      csvRun .startField done x (joinComma fs) = .row (done ++ fs ++ [[]]) := by
  intro fs
  induction fs with
  | nil => intro _ done x; simp [joinComma, csvRun]
  | cons f rest ih =>
    intro h done x
    obtain ⟨hne, hchars, hq, hsp⟩ := h f (List.mem_cons_self f rest)
    obtain ⟨c, f', rfl⟩ := List.exists_cons_of_ne_nil hne
    obtain ⟨hcm, hnl, hcr, _⟩ := hchars c (List.mem_cons_self c f')
    have hcq : c ≠ '"' := fun e => hq (by rw [e]; rfl)
    have hcs : c ≠ ' ' := fun e => hsp (by rw [e]; rfl)
    have hjc : joinComma ((c :: f') :: rest) =
        c :: (f' ++ ',' :: joinComma rest) := rfl
    rw [hjc, csvRun]
    rw [if_neg (by tauto), if_neg hcq, if_neg hcm, if_neg hcs]
    rw [csvRun_inField_run f' done [c] (',' :: joinComma rest)
      (fun d hd => (hchars d (List.mem_cons_of_mem c hd)).imp id
        (fun hx => ⟨hx.1, hx.2.1⟩))]
    rw [csvRun]
    rw [if_neg (by simp), if_pos rfl]
    have hacc : [c] ++ f' = c :: f' := rfl
    rw [hacc, ih (fun g hg => h g (List.mem_cons_of_mem (c :: f') hg))
      (done ++ [c :: f']) []]
    simp

theorem joinComma_chars :
    ∀ (fs : List LC) (c : Char), c ∈ joinComma fs →
      c = ',' ∨ ∃ f ∈ fs, c ∈ f := by
  intro fs
  induction fs with
  | nil => intro c hc; cases hc
  | cons f rest ih =>
    intro c hc
    have hjc : joinComma (f :: rest) = f ++ ',' :: joinComma rest := rfl
    rw [hjc] at hc
    rcases List.mem_append.1 hc with h | h
    · exact Or.inr ⟨f, List.mem_cons_self f rest, h⟩
    · rcases List.mem_cons.1 h with h1 | h1
      · exact Or.inl h1
      · rcases ih c h1 with h2 | ⟨g, hg, hcg⟩
        · exact Or.inl h2
        · exact Or.inr ⟨g, List.mem_cons_of_mem f hg, hcg⟩

theorem csvNext_joinComma (fs : List LC) (h : ∀ f ∈ fs, plainTok f)
    (hne : fs ≠ []) : csvNext (joinComma fs) = .row (fs ++ [[]]) := by
  rcases fs with _ | ⟨f, rest⟩
  · exact absurd rfl hne
  · obtain ⟨hfne, hchars, hq, hsp⟩ := h f (List.mem_cons_self f rest)
    obtain ⟨c, f', rfl⟩ := List.exists_cons_of_ne_nil hfne
    obtain ⟨hcm, hnl, hcr, _⟩ := hchars c (List.mem_cons_self c f')
    have hnul : (joinComma ((c :: f') :: rest)).contains '\x00' = false := by
      rw [Bool.eq_false_iff]
      intro hx
      rcases joinComma_chars _ _ (List.elem_iff.1 hx) with h1 | ⟨g, hg, hcg⟩
      · exact absurd h1.symm (by decide)
      · exact ((h g hg).2.1 _ hcg).2.2.2 rfl
    have hjc : joinComma ((c :: f') :: rest) =
        c :: (f' ++ ',' :: joinComma rest) := rfl
    unfold csvNext
    rw [hnul, if_neg (by simp), hjc]
    simp only []
    rw [if_neg (by tauto), ← hjc]
    rw [csvRun_start_join ((c :: f') :: rest) h [] []]
    simp

theorem ser_fold_eq :
    ∀ (ps : List (LC × LC)) (X : LC),
      (ps.foldr (fun kv acc => kv.1 ++ ':' :: kv.2 ++ ',' :: acc) []) ++ X =
      ps.foldr (fun kv acc => kv.1 ++ ':' :: kv.2 ++ ',' :: acc) X := by
  intro ps
  induction ps with
  | nil => intro X; simp
  | cons kv t ih =>
    intro X
    rw [List.foldr_cons, List.foldr_cons, ← ih X]
    simp only [List.append_assoc, List.cons_append]

theorem joinComma_map_token :
    ∀ (ps : List (LC × LC)) (X : LC),
      joinComma (ps.map (fun kv => kv.1 ++ ':' :: kv.2) ++ [X]) =
      ps.foldr (fun kv acc => kv.1 ++ ':' :: kv.2 ++ ',' :: acc) (X ++ [',']) := by
  intro ps
  induction ps with
  | nil => intro X; rfl
  | cons kv t ih =>
    intro X
    have hjc : joinComma ((kv.1 ++ ':' :: kv.2) ::
        (t.map (fun kv => kv.1 ++ ':' :: kv.2) ++ [X])) =
        (kv.1 ++ ':' :: kv.2) ++
          ',' :: joinComma (t.map (fun kv => kv.1 ++ ':' :: kv.2) ++ [X]) := rfl
    rw [List.map_cons, List.cons_append, hjc, ih X, List.foldr_cons]

theorem serialize_eq_joinComma (m : Mapping) :
    m.serialize = joinComma (m.guid :: m.name ::
      ((pySorted m.keys).map (fun kv => kv.1 ++ ':' :: kv.2) ++
       ["platform:".toList ++ m.platform])) := by
  have hjc : joinComma (m.guid :: m.name ::
      ((pySorted m.keys).map (fun kv => kv.1 ++ ':' :: kv.2) ++
       ["platform:".toList ++ m.platform])) =
      m.guid ++ ',' :: (m.name ++ ',' ::
        joinComma ((pySorted m.keys).map (fun kv => kv.1 ++ ':' :: kv.2) ++
          ["platform:".toList ++ m.platform])) := rfl
  rw [hjc, joinComma_map_token, ← ser_fold_eq]
  unfold Mapping.serialize
  simp

theorem filter_trailing_nil {fs : List LC} (h : ∀ f ∈ fs, f ≠ []) :
    (fs ++ [([] : LC)]).filter (fun f => f != []) = fs := by
  rw [List.filter_append]
  have h1 : fs.filter (fun f => f != []) = fs := by
    rw [List.filter_eq_self]
    intro a ha
    simpa using h a ha
  rw [h1]
  simp

theorem find?_append_false {α : Type} (p : α → Bool) :
    ∀ (l1 l2 : List α), (∀ x ∈ l1, p x = false) →
      List.find? p (l1 ++ l2) = List.find? p l2 := by
  intro l1 l2 h
  induction l1 with
  | nil => rfl
  | cons a t ih =>
    rw [List.cons_append,
      List.find?_cons_of_neg _ (by rw [h a (List.mem_cons_self a t)]; simp)]
    exact ih (fun x hx => h x (List.mem_cons_of_mem a hx))

theorem keyTok_no_platform {k v : LC} (hk : 'm' ∉ k) (hv : ∀ c ∈ v, valueChar c) :
    containsSub (k ++ ':' :: v) ("platform:".toList) = false := by
  rw [Bool.eq_false_iff]
  intro hc
  have hm : 'm' ∈ k ++ ':' :: v := containsSub_mem hc 'm' (by decide)
  rcases List.mem_append.1 hm with h | h
  · exact hk h
  · rcases List.mem_cons.1 h with h1 | h1
    · exact absurd h1 (by decide)
    · exact (valueChar_not_bad (hv _ h1)).2.2.1 rfl

theorem platform_cases {p : LC} (h : platformsList.contains p = true) :
    p = "Windows".toList ∨ p = "Mac OS X".toList ∨
      p = "Linux".toList ∨ p = "Android".toList := by
  have hm : p ∈ platformsList := List.elem_iff.1 h
  simpa [platformsList] using hm

theorem platform_tok_facts :
    ∀ p : LC, platformsList.contains p = true →
      plainTok ("platform:".toList ++ p) ∧
      containsSub ("platform:".toList ++ p) ("platform:".toList) = true ∧
      pySplit ':' ("platform:".toList ++ p) = ["platform".toList, p] ∧
      ':' ∉ p := by
  intro p h
  rcases platform_cases h with rfl | rfl | rfl | rfl <;>
    exact ⟨by unfold plainTok; decide, by decide, by decide, by decide⟩

theorem keysInit_key_facts :
    ∀ k ∈ keysInit.map Prod.fst,
      k ≠ [] ∧ 'm' ∉ k ∧ ':' ∉ k ∧
      (∀ c ∈ k, c ≠ ',' ∧ c ≠ '\n' ∧ c ≠ '\r' ∧ c ≠ '\x00') ∧
      k.head? ≠ some '"' ∧ k.head? ≠ some ' ' := by decide

theorem keysInit_nodup : (keysInit.map Prod.fst).Nodup := by decide

theorem keysInit_vals_nil : ∀ kv ∈ keysInit, kv.2 = [] := by decide

theorem set_guid_plain {g : LC} (h : set_guid g = .ok g) : plainTok g := by
  unfold set_guid at h
  split_ifs at h with h1 h2 h3
  · subst h1; unfold plainTok; decide
  · have hall : ∀ c ∈ g, hexChars.contains c = true := List.all_eq_true.1 h3
    have hhex : ∀ c ∈ g, c ∈ hexChars := fun c hc => List.elem_iff.1 (hall c hc)
    have hfact : ∀ c ∈ hexChars,
        c ≠ ',' ∧ c ≠ '\n' ∧ c ≠ '\r' ∧ c ≠ '\x00' ∧ c ≠ '"' ∧ c ≠ ' ' := by decide
    have hlen : g.length = 32 := by omega
    have hgne : g ≠ [] := by
      intro e; rw [e] at hlen; simp at hlen
    refine ⟨hgne, ?_, ?_, ?_⟩
    · intro c hc
      obtain ⟨q1, q2, q3, q4, _, _⟩ := hfact c (hhex c hc)
      exact ⟨q1, q2, q3, q4⟩
    · intro he
      rcases g with _ | ⟨c0, t⟩
      · exact hgne rfl
      · have : c0 = '"' := by injection he
        obtain ⟨_, _, _, _, q5, _⟩ :=
          hfact c0 (hhex c0 (List.mem_cons_self c0 t))
        exact q5 this
    · intro he
      rcases g with _ | ⟨c0, t⟩
      · exact hgne rfl
      · have : c0 = ' ' := by injection he
        obtain ⟨_, _, _, _, _, q6⟩ :=
          hfact c0 (hhex c0 (List.mem_cons_self c0 t))
        exact q6 this

theorem canonical_recover :
    ∀ (init ks' ps : List (LC × LC)),
      init.map Prod.fst = ks'.map Prod.fst →
      (∀ kv ∈ init, kv.2 = []) →
      (∀ kv ∈ ks',
        (kv.2 ≠ [] → kmHas ps kv.1 = true ∧ kmGet ps kv.1 = kv.2) ∧
        (kv.2 = [] → kmHas ps kv.1 = false)) →
      (init.map (fun q => if kmHas ps q.1 = true then (q.1, kmGet ps q.1) else q)).filter
        (fun q => q.2 != []) = ks'.filter (fun q => q.2 != []) := by
  intro init
  induction init with
  | nil =>
    intro ks' ps hmap _ _
    have hk : ks' = [] := by
      cases ks' with
      | nil => rfl
      | cons a t => simp at hmap
    subst hk; rfl
  | cons kv it ih =>
    intro ks' ps hmap hinit hks
    cases ks' with
    | nil => simp at hmap
    | cons kw kt =>
      simp only [List.map_cons, List.cons.injEq] at hmap
      obtain ⟨hhead, htail⟩ := hmap
      obtain ⟨hw1, hw2⟩ := hks kw (List.mem_cons_self kw kt)
      by_cases hw : kw.2 = []
      · have hfalse : kmHas ps kw.1 = false := hw2 hw
        have hmapped :
            (if kmHas ps kv.1 = true then (kv.1, kmGet ps kv.1) else kv) = kv := by
          rw [hhead, hfalse]
          simp
        have hkv2 : kv.2 = [] := hinit kv (List.mem_cons_self kv it)
        rw [List.map_cons, hmapped, List.filter_cons, List.filter_cons,
          if_neg (by simp [hkv2]), if_neg (by simp [hw])]
        exact ih kt ps htail (fun q hq => hinit q (List.mem_cons_of_mem kv hq))
          (fun q hq => hks q (List.mem_cons_of_mem kw hq))
      · obtain ⟨htrue, hget⟩ := hw1 hw
        have hmapped :
            (if kmHas ps kv.1 = true then (kv.1, kmGet ps kv.1) else kv) = kw := by
          rw [hhead, htrue, if_pos rfl, hget]
        have hcond : (kw.2 != []) = true := by simp [hw]
        rw [List.map_cons, hmapped, List.filter_cons, List.filter_cons,
          if_pos hcond, if_pos hcond]
        rw [ih kt ps htail (fun q hq => hinit q (List.mem_cons_of_mem kv hq))
          (fun q hq => hks q (List.mem_cons_of_mem kw hq))]

theorem parse_ok_inv {line : LC} {ln : Nat} {amp : Bool} {r : Mapping}
    (h : Mapping.parse line ln amp = .ok r) :
    set_guid r.guid = .ok r.guid ∧
    collapseSpaces r.name = r.name ∧ r.name ≠ [] ∧
    platformsList.contains r.platform = true ∧
    ∃ km : List (LC × LC),
      km.map Prod.fst = keysInit.map Prod.fst ∧
      (∀ kv ∈ km, kv ∈ keysInit ∨ valueOutcome kv.2 = VOut.accepted) ∧
      r.keys = km.filter (fun kv => kv.2 != []) := by
  unfold Mapping.parse at h
  rcases hcs : csvNext line with fields | _ | _ <;> simp only [hcs] at h
  case noRecord => exact absurd h (by simp)
  case err => exact absurd h (by simp)
  rcases hfl : fields.filter (fun f => f != []) with _ | ⟨g, _ | ⟨n, rest⟩⟩ <;>
    simp only [hfl] at h
  · simp at h
  · rcases hsg : set_guid g with g' | e <;> simp only [hsg] at h <;> simp at h
  · rcases hsg : set_guid g with guid | e <;> simp only [hsg] at h
    · have hge : guid = g := set_guid_ok hsg
      subst hge
      rcases hsp2 : set_platform guid rest amp with ⟨p, rest'⟩ | e <;>
        simp only [hsp2] at h
      · rcases hsk : set_keys rest' with km | e <;> simp only [hsk] at h
        · simp only [Res.ok.injEq] at h
          subst h
          have hnn : n ≠ [] := by
            have hm : n ∈ fields.filter (fun f => f != []) := by
              rw [hfl]
              exact List.mem_cons_of_mem _ (List.mem_cons_self n rest)
            have := (List.mem_filter.1 hm).2
            simpa using this
          unfold set_keys at hsk
          rcases hlk : set_keys_loop keysInit false [] rest' with ⟨ks, thr, msg⟩ | e <;>
            rw [hlk] at hsk
          · cases thr with
            | true => simp at hsk
            | false =>
              simp only [Bool.false_eq_true, if_false, Res.ok.injEq] at hsk
              subst hsk
              obtain ⟨hmap, hmem⟩ :=
                set_keys_loop_inv rest' keysInit false [] ks false msg hlk
              exact ⟨hsg, collapse_idem n, collapse_ne_nil hnn,
                set_platform_ok_platform hsp2, ks, hmap, hmem, rfl⟩
          · simp at hsk
        · simp at h
      · simp at h
    · simp at h

theorem append_colon_inj :
    ∀ {a b c d : LC}, ':' ∉ a → ':' ∉ c →
      a ++ ':' :: b = c ++ ':' :: d → a = c ∧ b = d := by
  intro a
  induction a with
  | nil =>
    intro b c d _ hc h
    cases c with
    | nil =>
      rw [List.nil_append, List.nil_append, List.cons.injEq] at h
      exact ⟨rfl, h.2⟩
    | cons x c' =>
      rw [List.nil_append, List.cons_append, List.cons.injEq] at h
      exact absurd (show ':' ∈ x :: c' by
        rw [← h.1]; exact List.mem_cons_self ':' _) hc
  | cons y a' ih =>
    intro b c d ha hc h
    cases c with
    | nil =>
      rw [List.cons_append, List.nil_append, List.cons.injEq] at h
      exact absurd (show ':' ∈ y :: a' by
        rw [← h.1]; exact List.mem_cons_self y a') ha
    | cons x c' =>
      rw [List.cons_append, List.cons_append, List.cons.injEq] at h
      have hy : ':' ∉ a' := fun hm => ha (List.mem_cons_of_mem y hm)
      have hx : ':' ∉ c' := fun hm => hc (List.mem_cons_of_mem x hm)
      obtain ⟨h1, h2⟩ := ih hy hx h.2
      exact ⟨by rw [h.1, h1], h2⟩

theorem colonTok_inj {p q : LC × LC} (hp : ':' ∉ p.1) (hq : ':' ∉ q.1)
    (h : p.1 ++ ':' :: p.2 = q.1 ++ ':' :: q.2) : p = q := by
  obtain ⟨h1, h2⟩ := append_colon_inj hp hq h
  cases p
  cases q
  simp_all

theorem erase_map_colonTok :
    ∀ (ps : List (LC × LC)) (p0 : LC × LC), ':' ∉ p0.1 →
      (∀ q ∈ ps, ':' ∉ q.1) →
      ((ps.map (fun p : LC × LC => p.1 ++ ':' :: p.2)).erase
        (p0.1 ++ ':' :: p0.2)) =
      (ps.erase p0).map (fun p : LC × LC => p.1 ++ ':' :: p.2) := by
  intro ps
  induction ps with
  | nil => intro p0 _ _; rfl
  | cons q ps' ih =>
    intro p0 hp0 hq
    by_cases he : q = p0
    · subst he
      rw [List.map_cons, List.erase_cons_head, List.erase_cons_head]
    · have hne : (q.1 ++ ':' :: q.2) ≠ (p0.1 ++ ':' :: p0.2) := by
        intro hx
        exact he (colonTok_inj (hq q (List.mem_cons_self q ps')) hp0 hx)
      rw [List.map_cons, List.erase_cons_tail, List.erase_cons_tail,
        List.map_cons, ih p0 hp0 (fun x hx => hq x (List.mem_cons_of_mem q hx))]
      · simp [he]
      · simp [hne]

theorem perm_cons_erase_of_mem {α : Type} [BEq α] [LawfulBEq α] {a : α}
    {l : List α} (h : a ∈ l) : l.Perm (a :: l.erase a) := by
  induction l with
  | nil => cases h
  | cons b t ih =>
    by_cases hba : (b == a) = true
    · have hbe : b = a := eq_of_beq hba
      subst hbe
      rw [List.erase_cons_head]
    · rw [List.erase_cons_tail]
      · have hat : a ∈ t := by
          rcases List.mem_cons.1 h with rfl | h1
          · exact absurd (beq_self_eq_true a) hba
          · exact h1
        exact ((ih hat).cons b).trans (List.Perm.swap a b (t.erase a))
      · simp_all

theorem map_perm_decomp :
    ∀ (ts : List LC) (ps : List (LC × LC)), (∀ q ∈ ps, ':' ∉ q.1) →
      ts.Perm (ps.map (fun p : LC × LC => p.1 ++ ':' :: p.2)) →
      ∃ ps2 : List (LC × LC), ps2.Perm ps ∧
        ts = ps2.map (fun p : LC × LC => p.1 ++ ':' :: p.2) := by
  intro ts
  induction ts with
  | nil =>
    intro ps _ hperm
    have h1 : ps.map (fun p : LC × LC => p.1 ++ ':' :: p.2) = [] :=
      hperm.symm.eq_nil
    have h2 : ps = [] := List.map_eq_nil_iff.1 h1
    exact ⟨[], by rw [h2], rfl⟩
  | cons a ts' ih =>
    intro ps hcol hperm
    have hamem : a ∈ ps.map (fun p : LC × LC => p.1 ++ ':' :: p.2) :=
      hperm.mem_iff.1 (List.mem_cons_self a ts')
    obtain ⟨p0, hp0, hpa⟩ := List.mem_map.1 hamem
    have hperm2 : ts'.Perm
        ((ps.map (fun p : LC × LC => p.1 ++ ':' :: p.2)).erase a) := by
      have h1 := perm_cons_erase_of_mem hamem
      exact (hperm.trans h1).cons_inv
    rw [← hpa, erase_map_colonTok ps p0 (hcol p0 hp0) hcol] at hperm2
    obtain ⟨ps2', hps2perm, hts⟩ := ih (ps.erase p0)
      (fun q hq2 => hcol q (List.mem_of_mem_erase hq2)) hperm2
    refine ⟨p0 :: ps2', ?_, ?_⟩
    · exact (hps2perm.cons p0).trans (perm_cons_erase_of_mem hp0).symm
    · rw [List.map_cons, ← hpa, ← hts]

theorem find?_of_unique {α : Type} (p : α → Bool) :
    ∀ (l : List α) (x : α), x ∈ l → p x = true →
      (∀ y ∈ l, p y = true → y = x) → l.find? p = some x := by
  intro l
  induction l with
  | nil => intro x hx; cases hx
  | cons a t ih =>
    intro x hx hpx huniq
    by_cases hpa : p a = true
    · rw [List.find?_cons_of_pos t hpa]
      rw [huniq a (List.mem_cons_self a t) hpa]
    · rw [List.find?_cons_of_neg t (by simp [hpa])]
      have hxt : x ∈ t := by
        rcases List.mem_cons.1 hx with rfl | h1
        · exact absurd hpx hpa
        · exact h1
      exact ih x hxt hpx (fun y hy => huniq y (List.mem_cons_of_mem a hy))

/-- C2 (amended): for every record `r` produced by a successful parse whose
stored control values contain no newline (one can enter only through an
unterminated csv quote, via the trailing-newline `$` of the value regexes)
and whose name survives the csv layer verbatim — free of commas, newlines,
carriage returns and NUL, and not beginning with a double quote or a
space — parsing `serialize r` yields `r` again with only the line number
changed; moreover field order in the line does not matter: a line listing
guid, name and then the same comma-terminated control and platform fields
in ANY order parses to the same record, serialize's sorted order being the
canonical one. -/
theorem claim_C2_roundtrip_amended
    (line : LC) (ln ln2 : Nat) (amp amp2 : Bool) (r : Mapping)
    (hp : Mapping.parse line ln amp = .ok r)
    (hc : ',' ∉ r.name) (hn : '\n' ∉ r.name) (hcr : '\r' ∉ r.name)
    (hz : '\x00' ∉ r.name)
    (hq : r.name.head? ≠ some '"') (hs : r.name.head? ≠ some ' ')
    (hv : ∀ kv ∈ r.keys, '\n' ∉ kv.2) :
    Mapping.parse r.serialize ln2 amp2 = .ok { r with linenumber := ln2 } ∧
    ∀ rest2 : List LC,
      rest2.Perm (((pySorted r.keys).map (fun p : LC × LC => p.1 ++ ':' :: p.2)) ++
        ["platform:".toList ++ r.platform]) →
      Mapping.parse (joinComma (r.guid :: r.name :: rest2)) ln2 amp2 =
        .ok { r with linenumber := ln2 } := by
  obtain ⟨hsg, hcol, hnne, hplat, km, hkmap, hkmem, hkeys⟩ := parse_ok_inv hp
  have hkmnodup : (km.map Prod.fst).Nodup := by rw [hkmap]; exact keysInit_nodup
  have hsubl : (r.keys.map Prod.fst).Sublist (km.map Prod.fst) := by
    rw [hkeys]; exact (List.filter_sublist km).map Prod.fst
  have hknodup : (r.keys.map Prod.fst).Nodup := hsubl.nodup hkmnodup
  have hrk : ∀ kv ∈ r.keys, kv.2 ≠ [] ∧ valueOutcome kv.2 = VOut.accepted ∧
      kv.1 ∈ keysInit.map Prod.fst := by
    intro kv hm
    rw [hkeys] at hm
    obtain ⟨hmk, hcond⟩ := List.mem_filter.1 hm
    have h2 : kv.2 ≠ [] := by simpa using hcond
    refine ⟨h2, ?_, ?_⟩
    · rcases hkmem kv hmk with hin | hacc
      · exact absurd (keysInit_vals_nil kv hin) h2
      · exact hacc
    · rw [← hkmap]; exact List.mem_map_of_mem Prod.fst hmk
  have hvcharsK : ∀ p ∈ r.keys, ∀ c ∈ p.2, valueChar c :=
    fun p hp' c hcm => accepted_chars (hrk p hp').2.1 (hv p hp') c hcm
  have hpreK : ∀ p ∈ r.keys, kmHas keysInit p.1 = true ∧
      kmGet keysInit p.1 = [] ∧ valueOutcome p.2 = VOut.accepted ∧
      (':' ∉ p.1) ∧ (':' ∉ p.2) := by
    intro p hp'
    obtain ⟨h2, hacc, hk1⟩ := hrk p hp'
    obtain ⟨_, _, hcol1, _, _, _⟩ := keysInit_key_facts p.1 hk1
    refine ⟨?_, kmGet_all_nil keysInit keysInit_vals_nil p.1, hacc, hcol1, ?_⟩
    · rw [kmHas_eq_contains]; exact List.elem_iff.2 hk1
    · intro hcm
      exact (valueChar_not_bad (hvcharsK p hp' ':' hcm)).2.1 rfl
  have hperm : (pySorted r.keys).Perm r.keys := pySorted_perm r.keys
  have hpsmem : ∀ p ∈ pySorted r.keys, p ∈ r.keys :=
    fun p hp' => hperm.mem_iff.1 hp'
  have hptf := platform_tok_facts r.platform hplat
  have hnoplat : ∀ p ∈ r.keys,
      containsSub (p.1 ++ ':' :: p.2) ("platform:".toList) = false :=
    fun p hp' => keyTok_no_platform
      ((keysInit_key_facts p.1 (hrk p hp').2.2).2.1) (hvcharsK p hp')
  have htokplain : ∀ p ∈ r.keys, plainTok (p.1 ++ ':' :: p.2) := by
    intro p0 hp0
    obtain ⟨hne0, hm0, hcol0, hch0, hq0, hs0⟩ :=
      keysInit_key_facts p0.1 (hrk p0 hp0).2.2
    obtain ⟨c0, t0, he0⟩ := List.exists_cons_of_ne_nil hne0
    refine ⟨by simp, ?_, ?_, ?_⟩
    · intro c hcm
      rcases List.mem_append.1 hcm with hc1 | hc1
      · exact hch0 c hc1
      · rcases List.mem_cons.1 hc1 with rfl | hc2
        · exact ⟨by decide, by decide, by decide, by decide⟩
        · obtain ⟨q1, _, _, _, _, q6, q7, q8⟩ :=
            valueChar_not_bad (hvcharsK p0 hp0 c hc2)
          exact ⟨q1, q6, q7, q8⟩
    · rw [he0]
      intro he
      have : c0 = '"' := by injection he
      exact hq0 (by rw [he0, this]; rfl)
    · rw [he0]
      intro he
      have : c0 = ' ' := by injection he
      exact hs0 (by rw [he0, this]; rfl)
  have hsetkeysG : ∀ ps' : List (LC × LC), ps'.Perm r.keys →
      set_keys (ps'.map (fun p : LC × LC => p.1 ++ ':' :: p.2)) =
        .ok (kmSetAll keysInit ps') := by
    intro ps' hpx
    have hnd : (ps'.map Prod.fst).Nodup := ((hpx.map Prod.fst).nodup_iff).2 hknodup
    have hloop := set_keys_loop_assign ps' keysInit hnd
      (fun p hp' => hpreK p (hpx.mem_iff.1 hp'))
    unfold set_keys
    rw [hloop]
    simp
  have hrecoverG : ∀ ps' : List (LC × LC), ps'.Perm r.keys →
      (kmSetAll keysInit ps').filter (fun q => q.2 != []) = r.keys := by
    intro ps' hpx
    have hnd : (ps'.map Prod.fst).Nodup := ((hpx.map Prod.fst).nodup_iff).2 hknodup
    have hkm2 : kmSetAll keysInit ps' =
        keysInit.map (fun q => if kmHas ps' q.1 = true
          then (q.1, kmGet ps' q.1) else q) :=
      kmSetAll_eq ps' keysInit hnd keysInit_nodup
        (fun p hp' => (hpreK p (hpx.mem_iff.1 hp')).1)
    have hhyp : ∀ kv ∈ km,
        (kv.2 ≠ [] → kmHas ps' kv.1 = true ∧ kmGet ps' kv.1 = kv.2) ∧
        (kv.2 = [] → kmHas ps' kv.1 = false) := by
      intro kv hmk
      constructor
      · intro h2
        have hmem : kv ∈ r.keys := by
          rw [hkeys]
          exact List.mem_filter.2 ⟨hmk, by simpa using h2⟩
        refine ⟨?_, ?_⟩
        · rw [kmHas_perm hpx, kmHas_eq_contains]
          exact List.elem_iff.2 (List.mem_map_of_mem Prod.fst hmem)
        · rw [kmGet_perm hnd hpx]
          exact kmGet_of_mem_nodup hknodup hmem
      · intro h2
        rw [kmHas_perm hpx, kmHas_eq_contains, Bool.eq_false_iff]
        intro hcontains
        obtain ⟨kw, hkw, hkweq⟩ := List.mem_map.1 (List.elem_iff.1 hcontains)
        have hkwm : kw ∈ km := by
          have := hkw
          rw [hkeys] at this
          exact (List.mem_filter.1 this).1
        have hkwkv : kw = kv := keys_nodup_inj hkmnodup hkwm hmk hkweq
        have hkw2 : kw.2 ≠ [] := by
          have := hkw
          rw [hkeys] at this
          have := (List.mem_filter.1 this).2
          simpa using this
        exact hkw2 (hkwkv ▸ h2)
    rw [hkm2, canonical_recover keysInit km ps' hkmap.symm
      keysInit_vals_nil hhyp]
    exact hkeys.symm
  have hmain : ∀ rest2 : List LC,
      rest2.Perm (((pySorted r.keys).map (fun p : LC × LC => p.1 ++ ':' :: p.2)) ++
        ["platform:".toList ++ r.platform]) →
      Mapping.parse (joinComma (r.guid :: r.name :: rest2)) ln2 amp2 =
        .ok { r with linenumber := ln2 } := by
    intro rest2 hperm3
    have hmem2 : ∀ t ∈ rest2,
        (∃ p ∈ pySorted r.keys, t = p.1 ++ ':' :: p.2) ∨
        t = "platform:".toList ++ r.platform := by
      intro t ht
      rcases List.mem_append.1 (hperm3.mem_iff.1 ht) with h | h
      · obtain ⟨p0, hp0, hpe⟩ := List.mem_map.1 h
        exact Or.inl ⟨p0, hp0, hpe.symm⟩
      · exact Or.inr (by simpa using h)
    have hptokmem : ("platform:".toList ++ r.platform) ∈ rest2 :=
      hperm3.mem_iff.2 (List.mem_append.2 (Or.inr (by simp)))
    have hpred : ∀ y ∈ rest2, containsSub y ("platform:".toList) = true →
        y = "platform:".toList ++ r.platform := by
      intro y hy hcy
      rcases hmem2 y hy with ⟨p0, hp0, rfl⟩ | h
      · rw [hnoplat p0 (hpsmem p0 hp0)] at hcy
        cases hcy
      · exact h
    have hfind2 : rest2.find? (fun t => containsSub t ("platform:".toList)) =
        some ("platform:".toList ++ r.platform) :=
      find?_of_unique _ rest2 _ hptokmem hptf.2.1 hpred
    have hperm4 : (rest2.erase ("platform:".toList ++ r.platform)).Perm
        ((pySorted r.keys).map (fun p : LC × LC => p.1 ++ ':' :: p.2)) := by
      have h1 : rest2.Perm (("platform:".toList ++ r.platform) ::
          (pySorted r.keys).map (fun p : LC × LC => p.1 ++ ':' :: p.2)) :=
        hperm3.trans (List.perm_append_singleton _ _)
      exact ((perm_cons_erase_of_mem hptokmem).symm.trans h1).cons_inv
    obtain ⟨ps2, hps2perm, hts⟩ := map_perm_decomp _ (pySorted r.keys)
      (fun q hq2 => (hpreK q (hpsmem q hq2)).2.2.2.1) hperm4
    have hperm5 : ps2.Perm r.keys := hps2perm.trans hperm
    have hsp4 : set_platform r.guid rest2 amp2 =
        .ok (r.platform, ps2.map (fun p : LC × LC => p.1 ++ ':' :: p.2)) := by
      unfold set_platform
      rw [hfind2]
      simp only [hptf.2.2.1, List.get?, hplat, if_true]
      rw [hts]
    have hfields2 : ∀ f ∈ (r.guid :: r.name :: rest2), plainTok f := by
      intro f hf
      rcases List.mem_cons.1 hf with rfl | hf1
      · exact set_guid_plain hsg
      rcases List.mem_cons.1 hf1 with rfl | hf2
      · exact ⟨hnne, fun c hcm => ⟨fun e => hc (e ▸ hcm), fun e => hn (e ▸ hcm),
          fun e => hcr (e ▸ hcm), fun e => hz (e ▸ hcm)⟩, hq, hs⟩
      rcases hmem2 f hf2 with ⟨p0, hp0, rfl⟩ | rfl
      · exact htokplain p0 (hpsmem p0 hp0)
      · exact hptf.1
    have hcsv2 : csvNext (joinComma (r.guid :: r.name :: rest2)) =
        .row ((r.guid :: r.name :: rest2) ++ [[]]) :=
      csvNext_joinComma _ hfields2 (by simp)
    have hfilt2 : (((r.guid :: r.name :: rest2) ++ [[]]).filter
        (fun f => f != [])) = r.guid :: r.name :: rest2 :=
      filter_trailing_nil (fun f hf => (hfields2 f hf).1)
    unfold Mapping.parse
    simp only [hcsv2, hfilt2, hsg, hcol, hsp4, hsetkeysG ps2 hperm5,
      hrecoverG ps2 hperm5]
  constructor
  · rw [serialize_eq_joinComma r]
    exact hmain _ (List.Perm.refl _)
  · exact hmain

/-- C2 witness: a concrete record with a plain name round-trips through
serialize and parse (only the line number changes), and the same fields in
a different order — platform first — parse to the same record. -/
theorem claim_C2_witness :
    Mapping.parse
      ("030000005e040000a102000000010000,XBox 360 Receiver,a:b0,b:b1,platform:Windows,".toList)
      1 false =
      .ok ⟨"030000005e040000a102000000010000".toList, "XBox 360 Receiver".toList,
        "Windows".toList,
        [("a".toList, "b0".toList), ("b".toList, "b1".toList)], 1⟩ ∧
    Mapping.parse
      ((⟨"030000005e040000a102000000010000".toList, "XBox 360 Receiver".toList,
        "Windows".toList,
        [("a".toList, "b0".toList), ("b".toList, "b1".toList)], 1⟩ : Mapping).serialize)
      2 false =
      .ok ⟨"030000005e040000a102000000010000".toList, "XBox 360 Receiver".toList,
        "Windows".toList,
        [("a".toList, "b0".toList), ("b".toList, "b1".toList)], 2⟩ ∧
    Mapping.parse
      (joinComma ["030000005e040000a102000000010000".toList,
        "XBox 360 Receiver".toList, "platform:Windows".toList,
        "b:b1".toList, "a:b0".toList])
      2 false =
      .ok ⟨"030000005e040000a102000000010000".toList, "XBox 360 Receiver".toList,
        "Windows".toList,
        [("a".toList, "b0".toList), ("b".toList, "b1".toList)], 2⟩ := by
  have h := claim_C2_roundtrip_amended
    ("030000005e040000a102000000010000,XBox 360 Receiver,a:b0,b:b1,platform:Windows,".toList)
    1 2 false false
    ⟨"030000005e040000a102000000010000".toList, "XBox 360 Receiver".toList,
      "Windows".toList,
      [("a".toList, "b0".toList), ("b".toList, "b1".toList)], 1⟩
    (by decide) (by decide) (by decide) (by decide) (by decide) (by decide)
    (by decide) (by decide)
  exact ⟨by decide, h.1,
    h.2 ["platform:Windows".toList, "b:b1".toList, "a:b0".toList] (by decide)⟩
